import Mathlib

/-!
Verification of the Document Decomposition Engine of HOLE-Legal-Intelligence
(services/document-decomposer.ts, utils/pdf-splitter.ts, and the
legal_decompose_document tool handler).

The TypeScript sources are shallowly embedded below: JS numbers that hold page
indices are modelled as `Int`; the one place where the code computes
`Math.max(...)` over a possibly empty list (where JS yields `-Infinity`) is
modelled by the two-point extension `JsNum`.  The external Claude call
("oracle") is a function parameter: it receives the data the prompt is built
from (the page count and the page-by-page synopsis list) and returns either a
parsed boundary list or `none` (call failure or unparseable response).
-/

namespace HoleVerif

/-- Result of a JS `Math.max(...)` over integers: either a finite integer or
`-Infinity` (the value of `Math.max()` applied to no arguments). -/
inductive JsNum where
  | negInf : JsNum
  | int : Int → JsNum
deriving DecidableEq, Repr

/-- Binary `Math.max` on integers extended with `-Infinity`. -/
def jsMax : JsNum → JsNum → JsNum
  | .negInf, y => y
  | .int a, .negInf => .int a
  | .int a, .int b => .int (max a b)

/-- `Math.max(...l)`: fold of `jsMax` over a list, starting from
`-Infinity` (the result for the empty list). -/
def listMaxJs (l : List Int) : JsNum :=
  l.foldl (fun acc n => jsMax acc (.int n)) .negInf

/-- The closed `document_type` union of `DocumentBoundary` in
document-decomposer.ts. -/
inductive DocType where
  | policeReport | email | sms | photo | memo | courtFiling | medicalRecord | other
deriving DecidableEq, Repr

/-- The string literal of each `document_type` variant. -/
def DocType.str : DocType → String
  | .policeReport => "police-report"
  | .email => "email"
  | .sms => "sms"
  | .photo => "photo"
  | .memo => "memo"
  | .courtFiling => "court-filing"
  | .medicalRecord => "medical-record"
  | .other => "other"

/-- `DocumentBoundary` from document-decomposer.ts.  Page numbers are JS
numbers holding integers; `confidence` (a JS float in [0,1]) is modelled as a
rational. -/
structure DocumentBoundary where
  start_page : Int
  end_page : Int
  document_type : DocType
  title : String
  description : String
  confidence : Rat
  case_number : Option String := none
  incident_date : Option String := none
  subjects : Option (List String) := none
deriving DecidableEq, Repr

/-- `UnstructuredElement` as consumed by the decomposer: its `type` tag, its
`text`, and the optional `metadata.page_number`. -/
structure UnstructuredElement where
  type : String
  text : String
  page_number : Option Int := none
deriving DecidableEq, Repr

/-- The page an element is grouped under:
`element.metadata?.page_number || 1`.  A missing page number defaults to 1,
and so does an explicit `0` (JS `||` treats `0` as falsy). -/
def pageOf (e : UnstructuredElement) : Int :=
  match e.page_number with
  | none => 1
  | some p => if p = 0 then 1 else p

/-- One step of `groupElementsByPage`: append element `e` to the entry for
page `p`, creating the entry at the end if absent (mirrors
`groups[page].push(element)` on a JS record). -/
def addToGroups (gs : List (Int × List UnstructuredElement)) (p : Int)
    (e : UnstructuredElement) : List (Int × List UnstructuredElement) :=
  match gs with
  | [] => [(p, [e])]
  | (q, l) :: rest =>
      if q = p then (q, l ++ [e]) :: rest else (q, l) :: addToGroups rest p e

/-- `groupElementsByPage` from document-decomposer.ts: group elements by their
(defaulted) page number, preserving the original order within a page. -/
def groupElementsByPage (es : List UnstructuredElement) :
    List (Int × List UnstructuredElement) :=
  es.foldl (fun gs e => addToGroups gs (pageOf e) e) []

/-- Insertion step of the numeric-ascending sort applied to the page groups
(`.sort(([a], [b]) => Number(a) - Number(b))`). -/
def insertPair (x : Int × List UnstructuredElement) :
    List (Int × List UnstructuredElement) → List (Int × List UnstructuredElement)
  | [] => [x]
  | y :: ys => if x.1 < y.1 then x :: y :: ys else y :: insertPair x ys

/-- Stable ascending sort (by page key) of the page groups. -/
def sortPairs (l : List (Int × List UnstructuredElement)) :
    List (Int × List UnstructuredElement) :=
  l.foldr insertPair []

/-- Per-page synopsis sent to the oracle (the object literal built inside
`detectDocumentBoundaries`). -/
structure PageSynopsis where
  page : Int
  titles : List String
  headers : List String
  preview : String
deriving DecidableEq, Repr

/-- Text of the first `NarrativeText` element of a page group, or the empty
string (`els.find(e => e.type === 'NarrativeText')?.text || ''`). -/
def firstNarrativeText (els : List UnstructuredElement) : String :=
  match els.find? (fun e => e.type == "NarrativeText") with
  | some e => e.text
  | none => ""

/-- The preview of one page group: the first narrative text truncated to 200
characters (`firstParagraph.slice(0, 200)`). -/
def previewOf (els : List UnstructuredElement) : String :=
  (firstNarrativeText els).take 200

/-- Build the synopsis of one page group. -/
def synopsisOf (p : Int) (els : List UnstructuredElement) : PageSynopsis :=
  { page := p
    titles := (els.filter (fun e => e.type == "Title")).map (·.text)
    headers := (els.filter (fun e => e.type == "Header")).map (·.text)
    preview := previewOf els }

/-- The `pageSummary` array of `detectDocumentBoundaries`: one synopsis per
page present, in ascending page order. -/
def pageSummary (es : List UnstructuredElement) : List PageSynopsis :=
  (sortPairs (groupElementsByPage es)).map fun g => synopsisOf g.1 g.2

/-- `Math.max(...Object.keys(pageGroups).map(Number))` — the page count used
in the prompt and in the fallback boundary; `-Infinity` when there are no
elements. -/
def pageCountOf (es : List UnstructuredElement) : JsNum :=
  listMaxJs ((groupElementsByPage es).map (·.1))

/-- Insertion step of `boundaries.sort((a, b) => a.start_page - b.start_page)`
(stable, ascending by `start_page`). -/
def insertByStart (x : DocumentBoundary) :
    List DocumentBoundary → List DocumentBoundary
  | [] => [x]
  | y :: ys => if x.start_page < y.start_page then x :: y :: ys
               else y :: insertByStart x ys

/-- Stable ascending sort of boundaries by `start_page`. -/
def sortByStart (l : List DocumentBoundary) : List DocumentBoundary :=
  l.foldr insertByStart []

/-- The fallback boundary built in the `catch` branch of
`detectDocumentBoundaries`, for a finite page count `n`. -/
def fallbackBoundary (n : Int) : DocumentBoundary :=
  { start_page := 1
    end_page := n
    document_type := .other
    title := "Unprocessed Document Bundle"
    description := "Failed to detect boundaries - treating as single document"
    confidence := 1/10 }

/-- `detectDocumentBoundaries` from document-decomposer.ts, restricted to
type-correct oracle responses.  The external Claude call together with the
JSON extraction of its response is the `oracle` parameter: it consumes
exactly the data the prompt is built from (the page count and the ordered
synopsis list) and yields `some bs` when a well-typed boundary array was
parsed, `none` when the call or the parse threw.  On success the parsed list
is sorted by `start_page` and returned (the overlap `console.warn` pass does
not change it); on a throw the fallback boundary spanning `1..pageCount` is
returned.  This typed restriction is what the downstream pipeline consumes;
the full runtime behaviour of the `try` block — including responses that
parse into arrays of objects that are NOT valid boundaries, which the source
returns unvalidated — is modelled by `detectDocumentBoundariesRaw` below,
and `detectRaw_agrees_typed` proves this definition is its restriction along
`DocumentBoundary.toRaw`.  When the element list is empty the page count is
the JS value `-Infinity`, and the TS code then builds a fallback object whose
`end_page` is `-Infinity` — a value outside the integer carrier of our page
fields; that corner is modelled as `[]` and no theorem below relies on it
(every statement about the fallback assumes a nonempty element list, which
forces a finite page count). -/
def detectDocumentBoundaries
    (oracle : JsNum → List PageSynopsis → Option (List DocumentBoundary))
    (es : List UnstructuredElement) : List DocumentBoundary :=
  match oracle (pageCountOf es) (pageSummary es) with
  | some bs => sortByStart bs
  | none =>
      match pageCountOf es with
      | .int n => [fallbackBoundary n]
      | .negInf => []

/-- A JSON object in the array parsed from the oracle's response, as it
exists at runtime: the TS annotation `DocumentBoundary[]` is not checked, so
every field may be absent (JS `undefined`) and `document_type` may be any
string.  A field present with a JSON value of an entirely wrong type behaves,
for everything the adapter does with it (the sort comparator's subtraction
and the overlap comparisons), like an absent one — both produce `NaN` /
`undefined` comparisons — and is modelled as absent. -/
structure RawBoundary where
  start_page : Option Int := none
  end_page : Option Int := none
  document_type : Option String := none
  title : Option String := none
  description : Option String := none
  confidence : Option Rat := none
  case_number : Option String := none
  incident_date : Option String := none
  subjects : Option (List String) := none
deriving DecidableEq, Repr

/-- The fallback object of the `catch` branch, as a runtime value. -/
def rawFallback (n : Int) : RawBoundary :=
  { start_page := some 1
    end_page := some n
    document_type := some "other"
    title := some "Unprocessed Document Bundle"
    description := some "Failed to detect boundaries - treating as single document"
    confidence := some (1/10) }

/-- Outcome of the `try` block's oracle call and JSON extraction:
`threw` when anything in it throws — the API call fails, `JSON.parse`
rejects the extracted text, or the parsed value is not an array (then
`.sort` is not a function and throws); `parsed arr` when the response parses
into a JS array of objects, which the source then returns WITHOUT any
validation of the objects' shape.  (An array containing `null` or primitive
elements either throws in the comparator or warn loop when it has two or
more elements — folded into `threw` — or, as a singleton, is returned as-is;
that last corner is outside this carrier and no theorem relies on it.) -/
inductive OracleOutcome where
  | threw : OracleOutcome
  | parsed : List RawBoundary → OracleOutcome

/-- The sort comparator `(a, b) => a.start_page - b.start_page` evaluated to
"negative": when either field is absent the subtraction is `NaN`, which
`Array.prototype.sort` treats as `+0` (elements compare equal, stable order
kept). -/
def rawCmpNeg (a b : RawBoundary) : Bool :=
  match a.start_page, b.start_page with
  | some x, some y => decide (x < y)
  | _, _ => false

/-- Insertion step of the (stable) sort of the raw parsed array. -/
def insertByStartRaw (x : RawBoundary) : List RawBoundary → List RawBoundary
  | [] => [x]
  | y :: ys => if rawCmpNeg x y then x :: y :: ys else y :: insertByStartRaw x ys

/-- Stable sort of the raw parsed array by the JS comparator. -/
def sortByStartRaw (l : List RawBoundary) : List RawBoundary :=
  l.foldr insertByStartRaw []

/-- The runtime value of a type-correct boundary. -/
def DocumentBoundary.toRaw (b : DocumentBoundary) : RawBoundary :=
  { start_page := some b.start_page
    end_page := some b.end_page
    document_type := some b.document_type.str
    title := some b.title
    description := some b.description
    confidence := some b.confidence
    case_number := b.case_number
    incident_date := b.incident_date
    subjects := b.subjects }

/-- A typed oracle seen as a raw one: a well-typed parsed array, or a throw. -/
def liftOracle (o : JsNum → List PageSynopsis → Option (List DocumentBoundary)) :
    JsNum → List PageSynopsis → OracleOutcome :=
  fun pc ps =>
    match o pc ps with
    | some bs => .parsed (bs.map DocumentBoundary.toRaw)
    | none => .threw

/-- `detectDocumentBoundaries` at the runtime level: the fallback object is
built only when the `try` block throws; a response that parses into an array
of objects is sorted by the comparator and returned unvalidated, whether or
not its objects are valid boundaries (the overlap pass only logs warnings —
on objects its field accesses cannot throw — and does not change the value).
The empty-element `-Infinity` corner is modelled as for the typed
restriction. -/
def detectDocumentBoundariesRaw
    (oracle : JsNum → List PageSynopsis → OracleOutcome)
    (es : List UnstructuredElement) : List RawBoundary :=
  match oracle (pageCountOf es) (pageSummary es) with
  | .parsed arr => sortByStartRaw arr
  | .threw =>
      match pageCountOf es with
      | .int n => [rawFallback n]
      | .negInf => []

/-- `DecompositionResult` (the manifest).  `total_pages` is a JS
`Math.max(...)` over the boundary end pages and hence may be `-Infinity` when
the boundary list is empty; the wall-clock `processing_time_ms` field is not
modelled. -/
structure DecompositionResult where
  source_file : String
  total_pages : JsNum
  boundaries : List DocumentBoundary
  unstructured_elements : Nat
  claude_analysis_tokens : Nat
deriving Repr

/-- `decomposeDocument` from document-decomposer.ts (the same manifest
assembly appears in the `legal_decompose_document` handler): detect the
boundaries, then report `total_pages` as
`Math.max(...boundaries.map(b => b.end_page))`. -/
def decomposeDocument
    (oracle : JsNum → List PageSynopsis → Option (List DocumentBoundary))
    (fileName : String) (es : List UnstructuredElement) : DecompositionResult :=
  let boundaries := detectDocumentBoundaries oracle es
  { source_file := fileName
    total_pages := listMaxJs (boundaries.map (·.end_page))
    boundaries := boundaries
    unstructured_elements := es.length
    claude_analysis_tokens := 0 }

/-- Gap message pushed by `validateBoundaries`. -/
def gapMsg (b1 b2 : DocumentBoundary) : String :=
  "Gap detected: pages " ++ toString (b1.end_page + 1) ++ " to " ++
    toString (b2.start_page - 1) ++ " not assigned to any document"

/-- Overlap message pushed by `validateBoundaries` (indices are 0-based
positions in the list as given). -/
def overlapMsg (i : Nat) (b1 b2 : DocumentBoundary) : String :=
  "Overlap detected: boundary " ++ toString i ++ " (pages " ++
    toString b1.start_page ++ "-" ++ toString b1.end_page ++
    ") overlaps with boundary " ++ toString (i + 1) ++ " (pages " ++
    toString b2.start_page ++ "-" ++ toString b2.end_page ++ ")"

/-- Start-page bound message pushed by `validateBoundaries`. -/
def badStartMsg (b : DocumentBoundary) : String :=
  "Invalid start page: " ++ toString b.start_page ++ " (must be >= 1)"

/-- End-page bound message pushed by `validateBoundaries`. -/
def badEndMsg (b : DocumentBoundary) (totalPages : Int) : String :=
  "Invalid end page: " ++ toString b.end_page ++ " (PDF only has " ++
    toString totalPages ++ " pages)"

/-- Inverted-range message pushed by `validateBoundaries`. -/
def badRangeMsg (b : DocumentBoundary) : String :=
  "Invalid range: start " ++ toString b.start_page ++ " > end " ++
    toString b.end_page

/-- The first loop of `validateBoundaries`: for every adjacent pair in the
list as given, push a gap error and/or an overlap error. -/
def pairErrors (i : Nat) : List DocumentBoundary → List String
  | b1 :: b2 :: rest =>
      (if b1.end_page + 1 < b2.start_page then [gapMsg b1 b2] else []) ++
      (if b1.end_page ≥ b2.start_page then [overlapMsg i b1 b2] else []) ++
      pairErrors (i + 1) (b2 :: rest)
  | _ => []

/-- The second loop of `validateBoundaries`: per-boundary bound checks. -/
def boundErrors (totalPages : Int) : List DocumentBoundary → List String
  | [] => []
  | b :: rest =>
      (if b.start_page < 1 then [badStartMsg b] else []) ++
      (if b.end_page > totalPages then [badEndMsg b totalPages] else []) ++
      (if b.start_page > b.end_page then [badRangeMsg b] else []) ++
      boundErrors totalPages rest

/-- The validation report returned by `validateBoundaries`. -/
structure ValidationReport where
  valid : Bool
  errors : List String
deriving DecidableEq, Repr

/-- `validateBoundaries` from pdf-splitter.ts: collect gap/overlap errors
over adjacent pairs (in the given order, without sorting), then per-boundary
bound errors; `valid` iff no error was collected. -/
def validateBoundaries (boundaries : List DocumentBoundary)
    (totalPages : Int) : ValidationReport :=
  let errors := pairErrors 0 boundaries ++ boundErrors totalPages boundaries
  { valid := errors.isEmpty, errors := errors }

/-- Decimal digit list of a natural number, most significant first, with a
structural fuel argument (the fuel is always sufficient at `n + 1`). -/
def natDigitsAux : Nat → Nat → List Char
  | 0, _ => []
  | fuel + 1, n =>
      if n < 10 then [Nat.digitChar n]
      else natDigitsAux fuel (n / 10) ++ [Nat.digitChar (n % 10)]

/-- Decimal digit list of a natural number, most significant first. -/
def natDigits (n : Nat) : List Char :=
  natDigitsAux (n + 1) n

/-- Decimal string of a JS integer, as produced by template-literal
interpolation (`-` sign followed by the digits for negative values). -/
def intStr (i : Int) : List Char :=
  if i < 0 then '-' :: natDigits i.natAbs else natDigits i.toNat

/-- Character class `[a-z0-9._-]` of the sanitizer regexes ('.' is 46,
'-' is 45, '_' is 95). -/
def validChar (c : Char) : Bool :=
  (97 ≤ c.toNat && c.toNat ≤ 122) || (48 ≤ c.toNat && c.toNat ≤ 57) ||
    c.toNat == 46 || c.toNat == 95 || c.toNat == 45

/-- `.replace(/[^a-z0-9._-]+/g, '-')`: every maximal run of invalid
characters becomes a single dash.  The flag records whether the previous
character belonged to an invalid run. -/
def replRuns : Bool → List Char → List Char
  | _, [] => []
  | prevInv, c :: cs =>
      if validChar c then c :: replRuns false cs
      else if prevInv then replRuns true cs
      else '-' :: replRuns true cs

/-- `.replace(/^-+|-+$/g, '')`: strip the leading and the trailing run of
dashes. -/
def stripDashes (l : List Char) : List Char :=
  ((l.dropWhile (· = '-')).reverse.dropWhile (· = '-')).reverse

/-- Third replace of the sanitizer (regex `-` repeated two or more times,
replaced globally by `'-'`): collapse every run of two or more dashes to a
single dash.  The flag records whether the previous character was a dash. -/
def collapseDashes : Bool → List Char → List Char
  | _, [] => []
  | prevDash, c :: cs =>
      if c = '-' then
        if prevDash then collapseDashes true cs
        else '-' :: collapseDashes true cs
      else c :: collapseDashes false cs

/-- The sanitizer pipeline without the final 200-character cap: lowercase,
replace invalid runs, strip leading/trailing dashes, collapse dash runs, in
exactly that order.  `Char.toLower` models JS `toLowerCase` (they agree on
ASCII). -/
def sanitizeNoCap (s : String) : List Char :=
  collapseDashes false (stripDashes (replRuns false (s.data.map Char.toLower)))

/-- `sanitizeFileName` from pdf-splitter.ts: the pipeline above followed by
`.slice(0, 200)`. -/
def sanitizeFileName (s : String) : String :=
  ⟨(sanitizeNoCap s).take 200⟩

/-- The raw filename assembled in `splitPDF` before sanitization
(`${boundary.document_type}_${boundary.title}_p${startPage}-${endPage}.pdf`
with the clamped page numbers). -/
def rawFileName (b : DocumentBoundary) (s e : Int) : String :=
  b.document_type.str ++ "_" ++ b.title ++ "_p" ++ ⟨intStr s⟩ ++ "-" ++
    ⟨intStr e⟩ ++ ".pdf"

/-- The suggested artifact filename for boundary `b` over a source of
`totalPages` pages: the sanitized raw filename built from the clamped page
range. -/
def suggestedName (totalPages : Int) (b : DocumentBoundary) : String :=
  sanitizeFileName
    (rawFileName b (max 1 b.start_page) (min totalPages b.end_page))

/-- One element of the `splitPDF` result array.  The copied pages are the
0-based source indices `startPage - 1 .. endPage - 1` in order
(`Array.from({length: endPage - startPage + 1}, (_, i) => startPage - 1 + i)`);
the binary payload itself is determined by them and is not modelled
further. -/
structure SplitPDFResult where
  boundary : DocumentBoundary
  copiedPages : List Int
  suggestedFileName : String
  pageCount : Int
deriving DecidableEq, Repr

/-- Warning logged when a boundary's clamped range is empty (the interpolated
values are the clamped ones). -/
def invalidRangeMsg (s e : Int) : String :=
  "Invalid page range for boundary: " ++ (⟨intStr s⟩ : String) ++ "-" ++ ⟨intStr e⟩

/-- Diagnostic logged when processing one boundary throws (the page numbers
interpolated are the raw, unclamped ones; the appended error object is not
modelled). -/
def failedSplitMsg (b : DocumentBoundary) : String :=
  "Failed to split pages " ++ (⟨intStr b.start_page⟩ : String) ++ "-" ++
    (⟨intStr b.end_page⟩ : String) ++ ":"

/-- The result record built for one surviving boundary, with `s, e` its
clamped page range. -/
def mkSplitResult (totalPages : Int) (b : DocumentBoundary) : SplitPDFResult :=
  let s := max 1 b.start_page
  let e := min totalPages b.end_page
  { boundary := b
    copiedPages := (List.range (e - s + 1).toNat).map (fun i => s - 1 + i)
    suggestedFileName := sanitizeFileName (rawFileName b s e)
    pageCount := e - s + 1 }

/-- `splitPDF` from pdf-splitter.ts.  `totalPages` is the source page count;
`saveFails` models the environment: it tells for which boundary the in-try
page copy/serialization throws.  Each boundary is clamped
(`max(1, start)`, `min(totalPages, end)`); an empty clamped range is skipped
with a warning, a throwing boundary is skipped with a diagnostic, and every
other boundary yields one result with `pageCount = endPage - startPage + 1`.
Returns the result list paired with the logged diagnostics. -/
def splitPDF (totalPages : Int) (saveFails : DocumentBoundary → Bool) :
    List DocumentBoundary → List SplitPDFResult × List String
  | [] => ([], [])
  | b :: rest =>
      let s := max 1 b.start_page
      let e := min totalPages b.end_page
      let next := splitPDF totalPages saveFails rest
      if s > e then (next.1, invalidRangeMsg s e :: next.2)
      else if saveFails b then (next.1, failedSplitMsg b :: next.2)
      else (mkSplitResult totalPages b :: next.1, next.2)

/-! Basic lemmas about `jsMax` and `listMaxJs`. -/

theorem jsMax_comm (a b : JsNum) : jsMax a b = jsMax b a := by
  cases a <;> cases b <;> simp [jsMax, max_comm]

theorem jsMax_assoc (a b c : JsNum) :
    jsMax (jsMax a b) c = jsMax a (jsMax b c) := by
  cases a <;> cases b <;> cases c <;> simp [jsMax, max_assoc]

theorem jsMax_self (a : JsNum) : jsMax a a = a := by
  cases a <;> simp [jsMax]

theorem jsMax_negInf (a : JsNum) : jsMax a .negInf = a := by
  cases a <;> simp [jsMax]

theorem foldl_jsMax_acc (l : List Int) (a : JsNum) :
    l.foldl (fun acc n => jsMax acc (.int n)) a = jsMax a (listMaxJs l) := by
  induction l generalizing a with
  | nil => simp [listMaxJs, jsMax_negInf]
  | cons x xs ih =>
      show List.foldl _ (jsMax a (.int x)) xs = jsMax a (listMaxJs (x :: xs))
      rw [ih]
      have hc : listMaxJs (x :: xs) = jsMax (.int x) (listMaxJs xs) := by
        show List.foldl _ (jsMax .negInf (.int x)) xs = _
        rw [ih]
        simp [jsMax]
      rw [hc, jsMax_assoc]

theorem listMaxJs_cons (x : Int) (xs : List Int) :
    listMaxJs (x :: xs) = jsMax (.int x) (listMaxJs xs) := by
  show List.foldl _ (jsMax .negInf (.int x)) xs = _
  rw [foldl_jsMax_acc]
  simp [jsMax]

theorem listMaxJs_append (l1 l2 : List Int) :
    listMaxJs (l1 ++ l2) = jsMax (listMaxJs l1) (listMaxJs l2) := by
  unfold listMaxJs
  rw [List.foldl_append, foldl_jsMax_acc]
  rfl

theorem listMaxJs_ne_negInf (x : Int) (xs : List Int) :
    ∃ m : Int, listMaxJs (x :: xs) = .int m := by
  rw [listMaxJs_cons]
  cases listMaxJs xs with
  | negInf => exact ⟨x, rfl⟩
  | int b => exact ⟨max x b, rfl⟩

theorem jsMax_absorb_of_mem {x : Int} {l : List Int} (hx : x ∈ l) :
    jsMax (listMaxJs l) (.int x) = listMaxJs l := by
  induction l with
  | nil => cases hx
  | cons y ys ih =>
      rcases List.mem_cons.mp hx with h | h
      · subst h
        rw [listMaxJs_cons, jsMax_assoc, jsMax_comm (listMaxJs ys) (JsNum.int x),
          ← jsMax_assoc, jsMax_self]
      · rw [listMaxJs_cons, jsMax_assoc, ih h]

theorem jsMax_int_listMax_of_ub {m : Int} {l : List Int}
    (hub : ∀ y ∈ l, y ≤ m) : jsMax (.int m) (listMaxJs l) = .int m := by
  induction l with
  | nil => simp [listMaxJs, List.foldl, jsMax]
  | cons x xs ih =>
      rw [listMaxJs_cons, ← jsMax_assoc]
      have hx : max m x = m := by
        have := hub x (List.mem_cons_self x xs)
        omega
      have h1 : jsMax (.int m) (.int x) = .int m := by simp [jsMax, hx]
      rw [h1, ih (fun y hy => hub y (List.mem_cons_of_mem _ hy))]

theorem listMaxJs_eq_of_mem_max {m : Int} {l : List Int} (hm : m ∈ l)
    (hub : ∀ y ∈ l, y ≤ m) : listMaxJs l = .int m := by
  have h1 := jsMax_absorb_of_mem hm
  have h2 := jsMax_int_listMax_of_ub hub
  rw [jsMax_comm] at h1
  rw [← h2, h1]

/-! Lemmas about the page grouping. -/

theorem addToGroups_keys (gs : List (Int × List UnstructuredElement)) (p : Int)
    (e : UnstructuredElement) :
    (addToGroups gs p e).map (·.1) =
      if p ∈ gs.map (·.1) then gs.map (·.1) else gs.map (·.1) ++ [p] := by
  induction gs with
  | nil => simp [addToGroups]
  | cons g rest ih =>
      obtain ⟨q, l⟩ := g
      by_cases hq : q = p
      · subst hq
        simp [addToGroups]
      · have hmem : (p ∈ q :: rest.map (·.1)) ↔ p ∈ rest.map (·.1) := by
          simp only [List.mem_cons]
          constructor
          · rintro (h | h)
            · exact absurd h.symm hq
            · exact h
          · exact fun h => Or.inr h
        simp only [addToGroups, if_neg hq, List.map_cons]
        rw [ih]
        by_cases hp : p ∈ rest.map (·.1)
        · rw [if_pos hp, if_pos (hmem.mpr hp)]
        · rw [if_neg hp, if_neg (fun h => hp (hmem.mp h)), List.cons_append]

theorem listMaxJs_keys_addToGroups (gs : List (Int × List UnstructuredElement))
    (p : Int) (e : UnstructuredElement) :
    listMaxJs ((addToGroups gs p e).map (·.1)) =
      jsMax (listMaxJs (gs.map (·.1))) (.int p) := by
  rw [addToGroups_keys]
  by_cases hp : p ∈ gs.map (·.1)
  · rw [if_pos hp, jsMax_absorb_of_mem hp]
  · rw [if_neg hp, listMaxJs_append]
    rfl

/-- The page count computed from the group keys equals the maximum of the
(defaulted) page numbers of the elements themselves. -/
theorem pageCountOf_eq_elemMax (es : List UnstructuredElement) :
    pageCountOf es = listMaxJs (es.map pageOf) := by
  have key : ∀ gs : List (Int × List UnstructuredElement),
      listMaxJs ((es.foldl (fun gs e => addToGroups gs (pageOf e) e) gs).map (·.1)) =
        es.foldl (fun a e => jsMax a (.int (pageOf e))) (listMaxJs (gs.map (·.1))) := by
    induction es with
    | nil => intro gs; rfl
    | cons e es ih =>
        intro gs
        show listMaxJs ((es.foldl _ (addToGroups gs (pageOf e) e)).map (·.1)) = _
        rw [ih (addToGroups gs (pageOf e) e), listMaxJs_keys_addToGroups]
        rfl
  have h := key []
  unfold pageCountOf groupElementsByPage
  rw [h]
  have h2 : listMaxJs (es.map pageOf) =
      es.foldl (fun a e => jsMax a (.int (pageOf e))) .negInf := by
    unfold listMaxJs
    rw [List.foldl_map]
  rw [h2]
  rfl

theorem pageCountOf_int_of_ne_nil {es : List UnstructuredElement} (h : es ≠ []) :
    ∃ m : Int, pageCountOf es = .int m := by
  obtain ⟨x, xs, rfl⟩ := List.exists_cons_of_ne_nil h
  rw [pageCountOf_eq_elemMax, List.map_cons]
  exact listMaxJs_ne_negInf _ _

/-- Concrete element fixtures used in witnesses and counterexamples. -/
def elemOnPage4 : UnstructuredElement := { type := "Title", text := "x", page_number := some 4 }

def elemOnPage10 : UnstructuredElement := { type := "Title", text := "a", page_number := some 10 }

/-- Concrete boundary fixtures used in witnesses and counterexamples. -/
def bndPages1to5 : DocumentBoundary :=
  { start_page := 1, end_page := 5, document_type := .other, title := "Doc",
    description := "", confidence := 1 }

def bndPages1to7 : DocumentBoundary :=
  { start_page := 1, end_page := 7, document_type := .other, title := "Doc",
    description := "", confidence := 1 }

theorem insertByStartRaw_perm (x : RawBoundary) (l : List RawBoundary) :
    (insertByStartRaw x l).Perm (x :: l) := by
  induction l with
  | nil => exact List.Perm.refl _
  | cons y ys ih =>
      simp only [insertByStartRaw]
      by_cases h : rawCmpNeg x y = true
      · rw [if_pos h]
      · rw [if_neg h]
        exact (ih.cons y).trans (List.Perm.swap x y ys)

theorem sortByStartRaw_perm (l : List RawBoundary) :
    (sortByStartRaw l).Perm l := by
  induction l with
  | nil => exact List.Perm.refl _
  | cons x xs ih =>
      show (insertByStartRaw x (sortByStartRaw xs)).Perm (x :: xs)
      exact (insertByStartRaw_perm x (sortByStartRaw xs)).trans (ih.cons x)

theorem rawCmpNeg_toRaw (x y : DocumentBoundary) :
    rawCmpNeg x.toRaw y.toRaw = decide (x.start_page < y.start_page) := rfl

theorem insertByStartRaw_map (x : DocumentBoundary) (l : List DocumentBoundary) :
    insertByStartRaw x.toRaw (l.map DocumentBoundary.toRaw) =
      (insertByStart x l).map DocumentBoundary.toRaw := by
  induction l with
  | nil => rfl
  | cons y ys ih =>
      simp only [List.map_cons, insertByStartRaw, insertByStart, rawCmpNeg_toRaw]
      by_cases h : x.start_page < y.start_page
      · rw [if_pos (by simpa using h), if_pos h]
        rfl
      · rw [if_neg (by simpa using h), if_neg h, List.map_cons, ih]

theorem sortByStartRaw_map (l : List DocumentBoundary) :
    sortByStartRaw (l.map DocumentBoundary.toRaw) =
      (sortByStart l).map DocumentBoundary.toRaw := by
  induction l with
  | nil => rfl
  | cons x xs ih =>
      show insertByStartRaw x.toRaw (sortByStartRaw (xs.map DocumentBoundary.toRaw)) = _
      rw [ih]
      exact insertByStartRaw_map x (sortByStart xs)

/-- The typed detection model is exactly the raw runtime model restricted to
type-correct oracle responses. -/
theorem detectRaw_agrees_typed
    (o : JsNum → List PageSynopsis → Option (List DocumentBoundary))
    (es : List UnstructuredElement) :
    detectDocumentBoundariesRaw (liftOracle o) es =
      (detectDocumentBoundaries o es).map DocumentBoundary.toRaw := by
  unfold detectDocumentBoundariesRaw detectDocumentBoundaries liftOracle
  cases ho : o (pageCountOf es) (pageSummary es) with
  | some bs => exact sortByStartRaw_map bs
  | none =>
      cases hpc : pageCountOf es with
      | negInf => rfl
      | int n => rfl

/-- A runtime object with none of the boundary fields — the shape of an
element of a response that parses into an array of invalid objects. -/
def rawJunk : RawBoundary := {}

/-- C2 counterexample: a response that parses into an array of invalid
objects (here one object with every boundary field absent) throws nowhere —
the sort comparator is `NaN`, treated as 0, and the overlap pass compares
`undefined`s — so the source returns the junk array unvalidated: detection
yields the invalid object itself, not the claimed single fallback boundary
spanning pages 1..4, although this response "cannot be parsed into valid
boundary objects". -/
theorem C2_counterexample :
    detectDocumentBoundariesRaw (fun _ _ => .parsed [rawJunk]) [elemOnPage4] = [rawJunk]
      ∧ rawJunk.start_page = none
      ∧ rawJunk.title = none
      ∧ pageCountOf [elemOnPage4] = JsNum.int 4
      ∧ rawJunk ≠ rawFallback 4 := by
  refine ⟨rfl, rfl, rfl, rfl, by decide⟩

/-- C2 (amended): the adapter converts to the single low-confidence fallback
exactly the responses on which the `try` block THROWS — oracle call failure,
text that does not JSON-parse, or a parsed value that is not an array; the
fallback then spans page 1 to the element-derived total page count with
`document_type = "other"`, title "Unprocessed Document Bundle" and confidence
≤ 0.1, and no error reaches the caller.  A response that parses into an
array of objects, however, is only sorted by `start_page` (absent fields
comparing as equal) and returned to the caller unvalidated, even when its
objects are not valid boundaries. -/
theorem C2_fallback_only_on_throw
    (oracle : JsNum → List PageSynopsis → OracleOutcome)
    (es : List UnstructuredElement) (hne : es ≠ []) :
    (oracle (pageCountOf es) (pageSummary es) = .threw →
      ∃ m : Int, pageCountOf es = .int m
        ∧ JsNum.int m = listMaxJs (es.map pageOf)
        ∧ detectDocumentBoundariesRaw oracle es = [rawFallback m]
        ∧ (rawFallback m).start_page = some 1
        ∧ (rawFallback m).end_page = some m
        ∧ (rawFallback m).document_type = some "other"
        ∧ (rawFallback m).title = some "Unprocessed Document Bundle"
        ∧ ∃ q : Rat, (rawFallback m).confidence = some q ∧ q ≤ 1/10)
    ∧ (∀ arr, oracle (pageCountOf es) (pageSummary es) = .parsed arr →
        detectDocumentBoundariesRaw oracle es = sortByStartRaw arr
        ∧ (detectDocumentBoundariesRaw oracle es).Perm arr) := by
  constructor
  · intro hthrew
    obtain ⟨m, hm⟩ := pageCountOf_int_of_ne_nil hne
    refine ⟨m, hm, ?_, ?_, rfl, rfl, rfl, rfl, 1/10, rfl, le_refl _⟩
    · rw [← pageCountOf_eq_elemMax, hm]
    · unfold detectDocumentBoundariesRaw
      rw [hthrew, hm]
  · intro arr hparsed
    have hdet : detectDocumentBoundariesRaw oracle es = sortByStartRaw arr := by
      unfold detectDocumentBoundariesRaw
      rw [hparsed]
    refine ⟨hdet, ?_⟩
    rw [hdet]
    exact sortByStartRaw_perm arr

/-- Witness for the amended C2: with one element on page 4, a throwing
oracle yields the fallback for pages 1..4, and an oracle whose response
parses to the invalid-object array yields that array back. -/
theorem C2_witness :
    detectDocumentBoundariesRaw (fun _ _ => .threw) [elemOnPage4] = [rawFallback 4]
      ∧ detectDocumentBoundariesRaw (fun _ _ => .parsed [rawJunk]) [elemOnPage4] =
          sortByStartRaw [rawJunk] := by
  constructor
  · obtain ⟨m, hm, _, hdet, _⟩ :=
      (C2_fallback_only_on_throw (fun _ _ => .threw) [elemOnPage4] (by simp)).1 rfl
    have h4 : pageCountOf [elemOnPage4] = .int 4 := rfl
    rw [h4] at hm
    cases hm
    exact hdet
  · exact ((C2_fallback_only_on_throw (fun _ _ => .parsed [rawJunk]) [elemOnPage4]
      (by simp)).2 [rawJunk] rfl).1

/-- C3 counterexample: on the empty element sequence the code does not fail
at all — there is no `EmptyInputError` anywhere in the source.  Grouping
returns the empty mapping, the derived page count is JS `Math.max()` of no
arguments (`-Infinity`), and the oracle is still consulted: with an oracle
that returns one boundary, detection returns that boundary. -/
theorem C3_counterexample :
    detectDocumentBoundaries (fun _ _ => some [bndPages1to5]) [] = [bndPages1to5]
      ∧ groupElementsByPage [] = []
      ∧ pageCountOf [] = JsNum.negInf :=
  ⟨rfl, rfl, rfl⟩

/-- C3 (amended): for the empty element sequence no error is raised and no
`EmptyInputError` exists; the page grouping and synopsis list are empty, the
derived page count is `-Infinity` (JS `Math.max()` with no arguments), the
oracle call is still made with exactly those values, and detection returns
the sorted oracle boundaries. -/
theorem C3_empty_input_no_error
    (oracle : JsNum → List PageSynopsis → Option (List DocumentBoundary))
    (bs : List DocumentBoundary) (h : oracle .negInf [] = some bs) :
    detectDocumentBoundaries oracle [] = sortByStart bs
      ∧ groupElementsByPage [] = []
      ∧ pageSummary [] = []
      ∧ pageCountOf [] = JsNum.negInf := by
  refine ⟨?_, rfl, rfl, rfl⟩
  have hh : oracle (pageCountOf []) (pageSummary []) = some bs := h
  unfold detectDocumentBoundaries
  rw [hh]

/-- Witness for the amended C3 at a concrete oracle. -/
theorem C3_witness :
    detectDocumentBoundaries (fun _ _ => some [bndPages1to5]) [] =
      sortByStart [bndPages1to5] :=
  (C3_empty_input_no_error (fun _ _ => some [bndPages1to5]) [bndPages1to5] rfl).1

/-- C10: the manifest's `total_pages` is `Math.max` over the returned
boundaries' end pages — not the element-derived page count.  When the last
returned boundary's end page bounds all the others (as after validation),
the two coincide exactly when that last end page equals the element-derived
count.  The concrete conjuncts exhibit a run where the two differ: elements
reach page 10 but the only boundary ends at page 7. -/
theorem C10_total_pages_from_boundaries
    (oracle : JsNum → List PageSynopsis → Option (List DocumentBoundary))
    (name : String) (es : List UnstructuredElement) :
    ((decomposeDocument oracle name es).total_pages =
        listMaxJs ((decomposeDocument oracle name es).boundaries.map (·.end_page)))
    ∧ (∀ x, (decomposeDocument oracle name es).boundaries.getLast? = some x →
        (∀ b ∈ (decomposeDocument oracle name es).boundaries,
            b.end_page ≤ x.end_page) →
        ((decomposeDocument oracle name es).total_pages = pageCountOf es ↔
          JsNum.int x.end_page = pageCountOf es))
    ∧ (decomposeDocument (fun _ _ => some [bndPages1to7]) "f" [elemOnPage10]).total_pages
        = JsNum.int 7
    ∧ pageCountOf [elemOnPage10] = JsNum.int 10 := by
  refine ⟨rfl, ?_, rfl, rfl⟩
  intro x hlast hub
  have hx : x ∈ (decomposeDocument oracle name es).boundaries := by
    obtain ⟨h1, h2⟩ :=
      List.mem_getLast?_eq_getLast (Option.mem_def.mpr hlast)
    rw [h2]
    exact List.getLast_mem h1
  have hmem : x.end_page ∈ (decomposeDocument oracle name es).boundaries.map (·.end_page) :=
    List.mem_map_of_mem _ hx
  have hub2 : ∀ y ∈ (decomposeDocument oracle name es).boundaries.map (·.end_page),
      y ≤ x.end_page := by
    intro y hy
    obtain ⟨b, hb, rfl⟩ := List.mem_map.mp hy
    exact hub b hb
  have htot : (decomposeDocument oracle name es).total_pages = .int x.end_page := by
    show listMaxJs ((decomposeDocument oracle name es).boundaries.map (·.end_page)) = _
    exact listMaxJs_eq_of_mem_max hmem hub2
  rw [htot]

/-- Witness for C10's conditional conjunct at a concrete run. -/
theorem C10_witness :
    ((decomposeDocument (fun _ _ => some [bndPages1to7]) "f" [elemOnPage10]).total_pages
        = pageCountOf [elemOnPage10] ↔
      JsNum.int bndPages1to7.end_page = pageCountOf [elemOnPage10]) :=
  (C10_total_pages_from_boundaries (fun _ _ => some [bndPages1to7]) "f"
    [elemOnPage10]).2.1 bndPages1to7 rfl (by decide)

/-! Characterization of the boundary validator. -/

/-- Adjacent contiguity in the given order: every adjacent pair satisfies
`end_page + 1 = next.start_page`. -/
def chainAdj : List DocumentBoundary → Bool
  | b1 :: b2 :: rest => (b1.end_page + 1 == b2.start_page) && chainAdj (b2 :: rest)
  | _ => true

theorem pairErrors_eq_nil (bs : List DocumentBoundary) (i : Nat) :
    pairErrors i bs = [] ↔ chainAdj bs = true := by
  induction bs generalizing i with
  | nil => simp [pairErrors, chainAdj]
  | cons b1 rest ih =>
      cases rest with
      | nil => simp [pairErrors, chainAdj]
      | cons b2 rest2 =>
          simp only [pairErrors, chainAdj, List.append_eq_nil,
            Bool.and_eq_true, ← ih (i + 1), beq_iff_eq]
          constructor
          · rintro ⟨⟨h1, h2⟩, h3⟩
            refine ⟨?_, h3⟩
            by_cases hg : b1.end_page + 1 < b2.start_page
            · simp [if_pos hg] at h1
            · by_cases ho : b1.end_page ≥ b2.start_page
              · simp [if_pos ho] at h2
              · omega
          · rintro ⟨h1, h3⟩
            refine ⟨⟨?_, ?_⟩, h3⟩
            · rw [if_neg (by omega)]
            · rw [if_neg (by omega)]

theorem boundErrors_eq_nil (N : Int) (bs : List DocumentBoundary) :
    boundErrors N bs = [] ↔
      ∀ b ∈ bs, 1 ≤ b.start_page ∧ b.end_page ≤ N ∧ b.start_page ≤ b.end_page := by
  induction bs with
  | nil => simp [boundErrors]
  | cons b rest ih =>
      simp only [boundErrors, List.append_eq_nil, ih, List.mem_cons]
      constructor
      · rintro ⟨⟨⟨h1, h2⟩, h3⟩, h4⟩
        intro x hx
        rcases hx with rfl | hx
        · refine ⟨?_, ?_, ?_⟩
          · by_cases h : x.start_page < 1
            · simp [if_pos h] at h1
            · omega
          · by_cases h : x.end_page > N
            · simp [if_pos h] at h2
            · omega
          · by_cases h : x.start_page > x.end_page
            · simp [if_pos h] at h3
            · omega
        · exact h4 x hx
      · intro h
        obtain ⟨h1, h2, h3⟩ := h b (Or.inl rfl)
        refine ⟨⟨⟨?_, ?_⟩, ?_⟩, fun x hx => h x (Or.inr hx)⟩
        · rw [if_neg (by omega)]
        · rw [if_neg (by omega)]
        · rw [if_neg (by omega)]

/-- The validator accepts exactly when, in the given order, the list is
adjacent-contiguous and every boundary is range-sane relative to
`totalPages`. -/
theorem validateBoundaries_valid_iff (bs : List DocumentBoundary) (N : Int) :
    (validateBoundaries bs N).valid = true ↔
      (chainAdj bs = true ∧
        ∀ b ∈ bs, 1 ≤ b.start_page ∧ b.end_page ≤ N ∧ b.start_page ≤ b.end_page) := by
  show (pairErrors 0 bs ++ boundErrors N bs).isEmpty = true ↔ _
  rw [List.isEmpty_iff, List.append_eq_nil, pairErrors_eq_nil, boundErrors_eq_nil]

theorem mem_pairErrors_gap :
    ∀ (bs : List DocumentBoundary) (i k : Nat) (h : k + 1 < bs.length),
      (bs.get ⟨k, Nat.lt_of_succ_lt h⟩).end_page + 1 <
          (bs.get ⟨k + 1, h⟩).start_page →
      gapMsg (bs.get ⟨k, Nat.lt_of_succ_lt h⟩) (bs.get ⟨k + 1, h⟩) ∈
        pairErrors i bs
  | [], _, k, h, _ => by simp at h
  | [b1], _, k, h, _ => by simp at h
  | b1 :: b2 :: rest, i, 0, h, hgap => by
      simp only [pairErrors, List.mem_append]
      left
      left
      simp only [List.get] at hgap
      rw [if_pos hgap]
      exact List.mem_singleton.mpr rfl
  | b1 :: b2 :: rest, i, k + 1, h, hgap => by
      simp only [pairErrors, List.mem_append]
      right
      have h' : k + 1 < (b2 :: rest).length := by
        simpa using Nat.lt_of_succ_lt_succ h
      have e1 : (b1 :: b2 :: rest).get ⟨k + 1, Nat.lt_of_succ_lt h⟩ =
          (b2 :: rest).get ⟨k, Nat.lt_of_succ_lt h'⟩ := rfl
      have e2 : (b1 :: b2 :: rest).get ⟨k + 1 + 1, h⟩ =
          (b2 :: rest).get ⟨k + 1, h'⟩ := rfl
      rw [e1, e2] at hgap ⊢
      exact mem_pairErrors_gap (b2 :: rest) (i + 1) k h' hgap

theorem mem_pairErrors_overlap :
    ∀ (bs : List DocumentBoundary) (i k : Nat) (h : k + 1 < bs.length),
      (bs.get ⟨k, Nat.lt_of_succ_lt h⟩).end_page ≥
          (bs.get ⟨k + 1, h⟩).start_page →
      overlapMsg (i + k) (bs.get ⟨k, Nat.lt_of_succ_lt h⟩) (bs.get ⟨k + 1, h⟩) ∈
        pairErrors i bs
  | [], _, k, h, _ => by simp at h
  | [b1], _, k, h, _ => by simp at h
  | b1 :: b2 :: rest, i, 0, h, hovl => by
      simp only [pairErrors, List.mem_append]
      left
      right
      simp only [List.get] at hovl
      rw [if_pos hovl]
      exact List.mem_singleton.mpr rfl
  | b1 :: b2 :: rest, i, k + 1, h, hovl => by
      simp only [pairErrors, List.mem_append]
      right
      have h' : k + 1 < (b2 :: rest).length := by
        simpa using Nat.lt_of_succ_lt_succ h
      have e1 : (b1 :: b2 :: rest).get ⟨k + 1, Nat.lt_of_succ_lt h⟩ =
          (b2 :: rest).get ⟨k, Nat.lt_of_succ_lt h'⟩ := rfl
      have e2 : (b1 :: b2 :: rest).get ⟨k + 1 + 1, h⟩ =
          (b2 :: rest).get ⟨k + 1, h'⟩ := rfl
      rw [e1, e2] at hovl ⊢
      have harith : i + (k + 1) = i + 1 + k := by omega
      rw [harith]
      exact mem_pairErrors_overlap (b2 :: rest) (i + 1) k h' hovl

theorem mem_boundErrors_badStart {b : DocumentBoundary}
    {bs : List DocumentBoundary} (N : Int) (hb : b ∈ bs)
    (h : b.start_page < 1) : badStartMsg b ∈ boundErrors N bs := by
  induction bs with
  | nil => cases hb
  | cons x rest ih =>
      simp only [boundErrors, List.mem_append]
      rcases List.mem_cons.mp hb with rfl | hb2
      · left
        left
        left
        rw [if_pos h]
        exact List.mem_singleton.mpr rfl
      · right
        exact ih hb2

theorem mem_boundErrors_badEnd {b : DocumentBoundary}
    {bs : List DocumentBoundary} (N : Int) (hb : b ∈ bs)
    (h : b.end_page > N) : badEndMsg b N ∈ boundErrors N bs := by
  induction bs with
  | nil => cases hb
  | cons x rest ih =>
      simp only [boundErrors, List.mem_append]
      rcases List.mem_cons.mp hb with rfl | hb2
      · left
        left
        right
        rw [if_pos h]
        exact List.mem_singleton.mpr rfl
      · right
        exact ih hb2

theorem mem_boundErrors_badRange {b : DocumentBoundary}
    {bs : List DocumentBoundary} (N : Int) (hb : b ∈ bs)
    (h : b.start_page > b.end_page) : badRangeMsg b ∈ boundErrors N bs := by
  induction bs with
  | nil => cases hb
  | cons x rest ih =>
      simp only [boundErrors, List.mem_append]
      rcases List.mem_cons.mp hb with rfl | hb2
      · left
        right
        rw [if_pos h]
        exact List.mem_singleton.mpr rfl
      · right
        exact ih hb2

/-- The acceptance condition claimed by the specification, stated as
written there: sort ascending by `startPage`, then require the first
boundary to start at page 1, the last one to end at page `N`, and adjacent
contiguity of the sorted sequence. -/
def specValidatorAccepts (bs : List DocumentBoundary) (N : Int) : Bool :=
  match sortByStart bs with
  | [] => true
  | b :: rest =>
      (b.start_page == 1) &&
      (match (b :: rest).getLast? with
       | some x => x.end_page == N
       | none => false) &&
      chainAdj (b :: rest)

/-- Concrete boundary fixture: pages 2–3. -/
def bndPages2to3 : DocumentBoundary :=
  { start_page := 2, end_page := 3, document_type := .other, title := "t",
    description := "", confidence := 1 }

/-- C1 counterexample: the single boundary covering pages 2–3 of a 3-page
document is accepted by `validateBoundaries` (valid, no errors) although the
specification's condition fails (its first sorted boundary does not start at
page 1): the validator never checks coverage of page 1 or page N. -/
theorem C1_counterexample :
    (validateBoundaries [bndPages2to3] 3).valid = true
      ∧ (validateBoundaries [bndPages2to3] 3).errors = []
      ∧ specValidatorAccepts [bndPages2to3] 3 = false := by
  refine ⟨rfl, rfl, by decide⟩

/-- C1 (amended): the validator accepts iff, in the list as given (it does
not sort), every adjacent pair is exactly contiguous and every boundary
satisfies `1 ≤ startPage`, `endPage ≤ N` and `startPage ≤ endPage`; it does
not require the first boundary to start at page 1 nor the last to end at
page N.  Whenever it rejects, each violation contributes its specific
page-numbered message to the error list. -/
theorem C1_validator_characterization (bs : List DocumentBoundary) (N : Int) :
    ((validateBoundaries bs N).valid = true ↔
      (chainAdj bs = true ∧
        ∀ b ∈ bs, 1 ≤ b.start_page ∧ b.end_page ≤ N ∧ b.start_page ≤ b.end_page))
    ∧ (∀ (k : Nat) (h : k + 1 < bs.length),
        ((bs.get ⟨k, Nat.lt_of_succ_lt h⟩).end_page + 1 <
            (bs.get ⟨k + 1, h⟩).start_page →
          gapMsg (bs.get ⟨k, Nat.lt_of_succ_lt h⟩) (bs.get ⟨k + 1, h⟩) ∈
            (validateBoundaries bs N).errors)
        ∧ ((bs.get ⟨k, Nat.lt_of_succ_lt h⟩).end_page ≥
              (bs.get ⟨k + 1, h⟩).start_page →
            overlapMsg k (bs.get ⟨k, Nat.lt_of_succ_lt h⟩) (bs.get ⟨k + 1, h⟩) ∈
              (validateBoundaries bs N).errors))
    ∧ (∀ b ∈ bs,
        (b.start_page < 1 → badStartMsg b ∈ (validateBoundaries bs N).errors)
        ∧ (b.end_page > N → badEndMsg b N ∈ (validateBoundaries bs N).errors)
        ∧ (b.start_page > b.end_page →
            badRangeMsg b ∈ (validateBoundaries bs N).errors)) := by
  have herr : (validateBoundaries bs N).errors =
      pairErrors 0 bs ++ boundErrors N bs := rfl
  refine ⟨validateBoundaries_valid_iff bs N, ?_, ?_⟩
  · intro k h
    constructor
    · intro hgap
      rw [herr]
      exact List.mem_append.mpr (Or.inl (mem_pairErrors_gap bs 0 k h hgap))
    · intro hovl
      rw [herr]
      have := mem_pairErrors_overlap bs 0 k h hovl
      rw [Nat.zero_add] at this
      exact List.mem_append.mpr (Or.inl this)
  · intro b hb
    refine ⟨?_, ?_, ?_⟩
    · intro h1
      rw [herr]
      exact List.mem_append.mpr (Or.inr (mem_boundErrors_badStart N hb h1))
    · intro h2
      rw [herr]
      exact List.mem_append.mpr (Or.inr (mem_boundErrors_badEnd N hb h2))
    · intro h3
      rw [herr]
      exact List.mem_append.mpr (Or.inr (mem_boundErrors_badRange N hb h3))

/-- Concrete boundary fixtures for the C1 witness: an overlapping pair with
an out-of-range start. -/
def bndPages0to5 : DocumentBoundary :=
  { start_page := 0, end_page := 5, document_type := .other, title := "t",
    description := "", confidence := 1 }

def bndPages4to10 : DocumentBoundary :=
  { start_page := 4, end_page := 10, document_type := .other, title := "u",
    description := "", confidence := 1 }

/-- Witness for the amended C1 on a concrete rejected list: the overlap and
the bad-start violations each contribute their message. -/
theorem C1_witness :
    overlapMsg 0 bndPages0to5 bndPages4to10 ∈
        (validateBoundaries [bndPages0to5, bndPages4to10] 5).errors
      ∧ badStartMsg bndPages0to5 ∈
        (validateBoundaries [bndPages0to5, bndPages4to10] 5).errors := by
  have h := C1_validator_characterization [bndPages0to5, bndPages4to10] 5
  refine ⟨(h.2.1 0 (by decide)).2 (by decide), ?_⟩
  exact (h.2.2 bndPages0to5 (by simp)).1 (by decide)

/-! Lemmas about the PDF splitter. -/

theorem splitPDF_cons_skip {N : Int} {f : DocumentBoundary → Bool}
    {b : DocumentBoundary} (rest : List DocumentBoundary)
    (h : max 1 b.start_page > min N b.end_page) :
    splitPDF N f (b :: rest) =
      ((splitPDF N f rest).1,
        invalidRangeMsg (max 1 b.start_page) (min N b.end_page) ::
          (splitPDF N f rest).2) := by
  simp only [splitPDF, if_pos h]

theorem splitPDF_cons_fail {N : Int} {f : DocumentBoundary → Bool}
    {b : DocumentBoundary} (rest : List DocumentBoundary)
    (h1 : ¬ max 1 b.start_page > min N b.end_page) (h2 : f b = true) :
    splitPDF N f (b :: rest) =
      ((splitPDF N f rest).1, failedSplitMsg b :: (splitPDF N f rest).2) := by
  simp only [splitPDF, if_neg h1, h2, if_pos]

theorem splitPDF_cons_good {N : Int} {f : DocumentBoundary → Bool}
    {b : DocumentBoundary} (rest : List DocumentBoundary)
    (h1 : ¬ max 1 b.start_page > min N b.end_page) (h2 : f b = false) :
    splitPDF N f (b :: rest) =
      (mkSplitResult N b :: (splitPDF N f rest).1, (splitPDF N f rest).2) := by
  simp only [splitPDF, if_neg h1, h2, Bool.false_eq_true, if_neg,
    if_false]

theorem splitPDF_results_spec (N : Int) (f : DocumentBoundary → Bool) :
    ∀ bs : List DocumentBoundary, ∀ r ∈ (splitPDF N f bs).1,
      r.pageCount = min N r.boundary.end_page - max 1 r.boundary.start_page + 1
      ∧ max 1 r.boundary.start_page ≤ min N r.boundary.end_page
      ∧ r.suggestedFileName = suggestedName N r.boundary := by
  intro bs
  induction bs with
  | nil => intro r hr; simp [splitPDF] at hr
  | cons b rest ih =>
      intro r hr
      by_cases h1 : max 1 b.start_page > min N b.end_page
      · rw [splitPDF_cons_skip rest h1] at hr
        exact ih r hr
      · cases h2 : f b with
        | true =>
            rw [splitPDF_cons_fail rest h1 h2] at hr
            exact ih r hr
        | false =>
            rw [splitPDF_cons_good rest h1 h2] at hr
            rcases List.mem_cons.mp hr with rfl | hr2
            · exact ⟨rfl, le_of_not_lt h1, rfl⟩
            · exact ih r hr2

theorem splitPDF_skip_empty_range (N : Int) (f : DocumentBoundary → Bool)
    (b : DocumentBoundary) (hb : max 1 b.start_page > min N b.end_page) :
    ∀ pre post : List DocumentBoundary,
      (splitPDF N f (pre ++ b :: post)).1 = (splitPDF N f (pre ++ post)).1
      ∧ invalidRangeMsg (max 1 b.start_page) (min N b.end_page) ∈
          (splitPDF N f (pre ++ b :: post)).2 := by
  intro pre
  induction pre with
  | nil =>
      intro post
      rw [List.nil_append, List.nil_append, splitPDF_cons_skip post hb]
      exact ⟨rfl, List.mem_cons_self _ _⟩
  | cons x xs ih =>
      intro post
      rw [List.cons_append, List.cons_append]
      by_cases h1 : max 1 x.start_page > min N x.end_page
      · rw [splitPDF_cons_skip _ h1, splitPDF_cons_skip _ h1]
        exact ⟨(ih post).1, List.mem_cons_of_mem _ (ih post).2⟩
      · cases h2 : f x with
        | true =>
            rw [splitPDF_cons_fail _ h1 h2, splitPDF_cons_fail _ h1 h2]
            exact ⟨(ih post).1, List.mem_cons_of_mem _ (ih post).2⟩
        | false =>
            rw [splitPDF_cons_good _ h1 h2, splitPDF_cons_good _ h1 h2]
            exact ⟨by rw [(ih post).1], (ih post).2⟩

/-- C4: the splitter clamps every boundary to `max(1, startPage)` and
`min(totalPages, endPage)`; every produced artifact's `pageCount` is the
clamped `endPage - startPage + 1` (and its name is built from the clamped
range); a boundary whose clamped range is empty is skipped with the warning
while all remaining boundaries are still processed (the results are exactly
those of the list without it). -/
theorem C4_split_clamping_and_empty_range_skip (N : Int)
    (f : DocumentBoundary → Bool) (bs : List DocumentBoundary) :
    (∀ r ∈ (splitPDF N f bs).1,
      r.pageCount = min N r.boundary.end_page - max 1 r.boundary.start_page + 1
      ∧ max 1 r.boundary.start_page ≤ min N r.boundary.end_page
      ∧ r.suggestedFileName = suggestedName N r.boundary)
    ∧ (∀ pre b post, bs = pre ++ b :: post →
        max 1 b.start_page > min N b.end_page →
        (splitPDF N f bs).1 = (splitPDF N f (pre ++ post)).1
        ∧ invalidRangeMsg (max 1 b.start_page) (min N b.end_page) ∈
            (splitPDF N f bs).2) := by
  refine ⟨splitPDF_results_spec N f bs, ?_⟩
  rintro pre b post rfl hb
  exact splitPDF_skip_empty_range N f b hb pre post

/-- Concrete boundary fixtures for the splitter witnesses. -/
def bndPages0to3 : DocumentBoundary :=
  { start_page := 0, end_page := 3, document_type := .other, title := "t",
    description := "", confidence := 1 }

def bndPages5to4 : DocumentBoundary :=
  { start_page := 5, end_page := 4, document_type := .other, title := "v",
    description := "", confidence := 1 }

def bndPages9to20 : DocumentBoundary :=
  { start_page := 9, end_page := 20, document_type := .other, title := "u",
    description := "", confidence := 1 }

/-- Witness for C4 on a concrete run: the empty-range boundary 5–4 is
skipped with its warning and the other two boundaries are still split. -/
theorem C4_witness :
    (splitPDF 10 (fun _ => false)
        [bndPages0to3, bndPages5to4, bndPages9to20]).1 =
      (splitPDF 10 (fun _ => false) [bndPages0to3, bndPages9to20]).1
    ∧ invalidRangeMsg (max 1 bndPages5to4.start_page)
        (min 10 bndPages5to4.end_page) ∈
      (splitPDF 10 (fun _ => false)
        [bndPages0to3, bndPages5to4, bndPages9to20]).2 :=
  (C4_split_clamping_and_empty_range_skip 10 (fun _ => false)
      [bndPages0to3, bndPages5to4, bndPages9to20]).2
    [bndPages0to3] bndPages5to4 [bndPages9to20] rfl (by decide)

theorem splitPDF_all_good (N : Int) (f : DocumentBoundary → Bool) :
    ∀ bs : List DocumentBoundary,
      (∀ b ∈ bs, f b = false ∧ max 1 b.start_page ≤ min N b.end_page) →
      (splitPDF N f bs).1.map (·.boundary) = bs := by
  intro bs
  induction bs with
  | nil => intro _; rfl
  | cons b rest ih =>
      intro h
      obtain ⟨hf, hr⟩ := h b (List.mem_cons_self _ _)
      rw [splitPDF_cons_good rest (not_lt.mpr hr) hf, List.map_cons,
        ih (fun x hx => h x (List.mem_cons_of_mem _ hx))]
      rfl

/-- C5: if exactly one boundary's serialization fails (every other boundary
is processed and succeeds), the splitter still returns one artifact for every
other boundary, in order — so the artifact count is the boundary count minus
one — and logs the diagnostic naming the skipped boundary's page range. -/
theorem C5_partial_failure_isolation (N : Int) (f : DocumentBoundary → Bool)
    (pre post : List DocumentBoundary) (bad : DocumentBoundary)
    (hfail : f bad = true)
    (hrange : max 1 bad.start_page ≤ min N bad.end_page)
    (hgood : ∀ b ∈ pre ++ post,
      f b = false ∧ max 1 b.start_page ≤ min N b.end_page) :
    (splitPDF N f (pre ++ bad :: post)).1.map (·.boundary) = pre ++ post
    ∧ (splitPDF N f (pre ++ bad :: post)).1.length =
        (pre ++ bad :: post).length - 1
    ∧ failedSplitMsg bad ∈ (splitPDF N f (pre ++ bad :: post)).2 := by
  induction pre with
  | nil =>
      have hpost : ∀ b ∈ post, f b = false ∧ max 1 b.start_page ≤ min N b.end_page :=
        fun b hb => hgood b (by simpa using hb)
      rw [List.nil_append, List.nil_append,
        splitPDF_cons_fail post (not_lt.mpr hrange) hfail]
      refine ⟨splitPDF_all_good N f post hpost, ?_, List.mem_cons_self _ _⟩
      have := congrArg List.length (splitPDF_all_good N f post hpost)
      simp only [List.length_map] at this
      simp [this]
  | cons x xs ih =>
      obtain ⟨hfx, hrx⟩ := hgood x (List.mem_cons_self _ _)
      have hgood2 : ∀ b ∈ xs ++ post,
          f b = false ∧ max 1 b.start_page ≤ min N b.end_page :=
        fun b hb => hgood b (by simpa using Or.inr (List.mem_append.mp hb))
      obtain ⟨ih1, ih2, ih3⟩ := ih hgood2
      rw [List.cons_append, splitPDF_cons_good _ (not_lt.mpr hrx) hfx]
      refine ⟨?_, ?_, ih3⟩
      · simp only [List.map_cons, ih1]
        rfl
      · simp only [List.length_cons, ih2, List.length_append, List.length_cons]
        omega

/-- Witness for C5 on a concrete run: the middle boundary's save fails and
the other two artifacts are still produced. -/
theorem C5_witness :
    (splitPDF 10 (fun b => decide (b = bndPages1to5))
        [bndPages0to3, bndPages1to5, bndPages9to20]).1.map (·.boundary) =
      [bndPages0to3, bndPages9to20]
    ∧ failedSplitMsg bndPages1to5 ∈
      (splitPDF 10 (fun b => decide (b = bndPages1to5))
        [bndPages0to3, bndPages1to5, bndPages9to20]).2 := by
  have h := C5_partial_failure_isolation 10 (fun b => decide (b = bndPages1to5))
    [bndPages0to3] [bndPages9to20] bndPages1to5 (by decide) (by decide) (by decide)
  exact ⟨h.1, h.2.2⟩

theorem splitPDF_sum_pageCounts (N : Int) :
    ∀ (bs : List DocumentBoundary) (b : DocumentBoundary),
      (∀ x ∈ b :: bs,
        1 ≤ x.start_page ∧ x.end_page ≤ N ∧ x.start_page ≤ x.end_page) →
      chainAdj (b :: bs) = true →
      ((splitPDF N (fun _ => false) (b :: bs)).1.map (·.pageCount)).sum
        = ((b :: bs).getLast (List.cons_ne_nil b bs)).end_page - b.start_page + 1 := by
  intro bs
  induction bs with
  | nil =>
      intro b h _
      obtain ⟨h1, h2, h3⟩ := h b (List.mem_cons_self _ _)
      have hs : max 1 b.start_page = b.start_page := max_eq_right h1
      have he : min N b.end_page = b.end_page := min_eq_right h2
      rw [splitPDF_cons_good [] (by omega) rfl]
      show (mkSplitResult N b).pageCount + 0 = _
      simp only [mkSplitResult]
      rw [hs, he, List.getLast_singleton]
      omega
  | cons b2 rest ih =>
      intro b h hchain
      obtain ⟨h1, h2, h3⟩ := h b (List.mem_cons_self _ _)
      simp only [chainAdj, Bool.and_eq_true, beq_iff_eq] at hchain
      obtain ⟨hadj, hchain2⟩ := hchain
      have hchain2b : chainAdj (b2 :: rest) = true := hchain2
      have hsum2 := ih b2 (fun x hx => h x (List.mem_cons_of_mem _ hx)) hchain2b
      have hs : max 1 b.start_page = b.start_page := max_eq_right h1
      have he : min N b.end_page = b.end_page := min_eq_right h2
      rw [splitPDF_cons_good (b2 :: rest) (by omega) rfl]
      have hlast : ((b :: b2 :: rest).getLast (List.cons_ne_nil b (b2 :: rest)))
          = ((b2 :: rest).getLast (List.cons_ne_nil b2 rest)) :=
        List.getLast_cons (List.cons_ne_nil b2 rest)
      rw [List.map_cons, List.sum_cons, hsum2, hlast]
      show (mkSplitResult N b).pageCount + _ = _
      simp only [mkSplitResult]
      rw [hs, he]
      omega

/-- C6: for a boundary list that partitions pages 1..N — accepted by the
validator, first boundary starting at page 1, last boundary ending at page
N — the page counts of the artifacts returned by the splitter sum to N. -/
theorem C6_partition_pageCounts_sum (N : Int) (bs : List DocumentBoundary)
    (hvalid : (validateBoundaries bs N).valid = true)
    (hfirst : bs.head?.map (·.start_page) = some 1)
    (hlast : bs.getLast?.map (·.end_page) = some N) :
    ((splitPDF N (fun _ => false) bs).1.map (·.pageCount)).sum = N := by
  cases bs with
  | nil => simp at hfirst
  | cons b rest =>
      obtain ⟨hchain, hbounds⟩ := (validateBoundaries_valid_iff _ _).mp hvalid
      have hsum := splitPDF_sum_pageCounts N rest b hbounds hchain
      have hb1 : b.start_page = 1 := by simpa using hfirst
      have hlast2 : ((b :: rest).getLast (List.cons_ne_nil b rest)).end_page = N := by
        rw [List.getLast?_eq_getLast_of_ne_nil (List.cons_ne_nil b rest)] at hlast
        simpa using hlast
      rw [hsum, hb1, hlast2]
      omega

/-- Concrete boundary fixture: pages 6–10. -/
def bndPages6to10 : DocumentBoundary :=
  { start_page := 6, end_page := 10, document_type := .other, title := "w",
    description := "", confidence := 1 }

/-- Witness for C6 on the concrete partition [1–5, 6–10] of 10 pages. -/
theorem C6_witness :
    ((splitPDF 10 (fun _ => false) [bndPages1to5, bndPages6to10]).1.map
        (·.pageCount)).sum = 10 :=
  C6_partition_pageCounts_sum 10 [bndPages1to5, bndPages6to10]
    (by decide) (by decide) (by decide)

/-! Lemmas about grouping and the page synopsis (claim C9). -/

/-- Lookup of a page's element list in a group list (`pageGroups[page]`). -/
def lookupGroup : List (Int × List UnstructuredElement) → Int →
    Option (List UnstructuredElement)
  | [], _ => none
  | (q, l) :: rest, p => if q = p then some l else lookupGroup rest p

theorem lookupGroup_addToGroups (gs : List (Int × List UnstructuredElement))
    (p q : Int) (e : UnstructuredElement) :
    lookupGroup (addToGroups gs p e) q =
      if q = p then
        (match lookupGroup gs p with
         | some l => some (l ++ [e])
         | none => some [e])
      else lookupGroup gs q := by
  induction gs with
  | nil =>
      simp only [addToGroups, lookupGroup]
      by_cases hq : q = p
      · subst hq
        simp [lookupGroup]
      · rw [if_neg (fun h => hq h.symm), if_neg hq]
  | cons g rest ih =>
      obtain ⟨k, l⟩ := g
      by_cases hk : k = p
      · subst hk
        simp only [addToGroups, if_pos rfl, lookupGroup]
        by_cases hq : q = k
        · subst hq
          simp [lookupGroup]
        · rw [if_neg (fun h => hq h.symm), if_neg hq, if_neg (fun h => hq h.symm)]
      · simp only [addToGroups, if_neg hk, lookupGroup]
        by_cases hkq : k = q
        · have hq : ¬ q = p := fun h => hk (hkq.trans h)
          rw [if_pos hkq, if_neg hq, if_pos hkq]
        · rw [if_neg hkq, ih, if_neg hkq]

theorem groupElementsByPage_append_singleton (es : List UnstructuredElement)
    (e : UnstructuredElement) :
    groupElementsByPage (es ++ [e]) =
      addToGroups (groupElementsByPage es) (pageOf e) e := by
  unfold groupElementsByPage
  rw [List.foldl_append]
  rfl

/-- The group stored under page `p` is exactly the subsequence of elements
whose (defaulted) page is `p`, in original order. -/
theorem lookupGroup_groupElementsByPage (es : List UnstructuredElement) (p : Int) :
    lookupGroup (groupElementsByPage es) p =
      if es.filter (fun e => pageOf e == p) = [] then none
      else some (es.filter (fun e => pageOf e == p)) := by
  induction es using List.reverseRecOn with
  | nil => simp [groupElementsByPage, lookupGroup]
  | append_singleton es e ih =>
      rw [groupElementsByPage_append_singleton, lookupGroup_addToGroups,
        List.filter_append]
      by_cases hpe : pageOf e = p
      · have hbeq : (pageOf e == p) = true := by simpa using hpe
        have hkeep : [e].filter (fun x => pageOf x == p) = [e] := by
          simp [List.filter, hbeq]
        rw [if_pos hpe.symm, hpe, ih, hkeep]
        by_cases hnil : es.filter (fun x => pageOf x == p) = []
        · rw [if_pos hnil, hnil]
          simp
        · rw [if_neg hnil, if_neg (by simp)]
      · have hbeq : (pageOf e == p) = false := by simpa using hpe
        have hdrop : [e].filter (fun x => pageOf x == p) = [] := by
          simp [List.filter, hbeq]
        rw [if_neg (fun h => hpe h.symm), ih, hdrop, List.append_nil]

theorem keys_nodup (es : List UnstructuredElement) :
    ((groupElementsByPage es).map (·.1)).Nodup := by
  induction es using List.reverseRecOn with
  | nil => simp [groupElementsByPage]
  | append_singleton es e ih =>
      rw [groupElementsByPage_append_singleton, addToGroups_keys]
      by_cases hp : pageOf e ∈ (groupElementsByPage es).map (·.1)
      · rw [if_pos hp]
        exact ih
      · rw [if_neg hp]
        simp [List.nodup_append, ih, hp]

theorem mem_keys_iff_lookup (gs : List (Int × List UnstructuredElement))
    (p : Int) : p ∈ gs.map (·.1) ↔ lookupGroup gs p ≠ none := by
  induction gs with
  | nil => simp [lookupGroup]
  | cons g rest ih =>
      obtain ⟨k, l⟩ := g
      simp only [List.map_cons, List.mem_cons, lookupGroup]
      by_cases hk : k = p
      · rw [if_pos hk]
        simp [hk.symm]
      · rw [if_neg hk]
        simp only [← ih]
        constructor
        · rintro (h | h)
          · exact absurd h.symm hk
          · exact h
        · exact fun h => Or.inr h

theorem lookupGroup_of_mem :
    ∀ (gs : List (Int × List UnstructuredElement)) (p : Int)
      (l : List UnstructuredElement),
      ((gs.map (·.1)).Nodup) → (p, l) ∈ gs → lookupGroup gs p = some l := by
  intro gs
  induction gs with
  | nil => intro p l _ h; cases h
  | cons g rest ih =>
      intro p l hnd hmem
      obtain ⟨k, m⟩ := g
      simp only [List.map_cons, List.nodup_cons] at hnd
      rcases List.mem_cons.mp hmem with heq | hmem2
      · have hk : k = p := (congrArg Prod.fst heq).symm
        have hl : m = l := (congrArg Prod.snd heq).symm
        simp only [lookupGroup, if_pos hk, hl]
      · have hkp : ¬ k = p := by
          intro h
          apply hnd.1
          rw [h]
          exact List.mem_map_of_mem _ hmem2
        simp only [lookupGroup, if_neg hkp]
        exact ih p l hnd.2 hmem2

theorem insertPair_perm (x : Int × List UnstructuredElement)
    (l : List (Int × List UnstructuredElement)) :
    (insertPair x l).Perm (x :: l) := by
  induction l with
  | nil => exact List.Perm.refl _
  | cons y ys ih =>
      simp only [insertPair]
      by_cases h : x.1 < y.1
      · rw [if_pos h]
      · rw [if_neg h]
        exact (ih.cons y).trans (List.Perm.swap x y ys)

theorem sortPairs_perm (l : List (Int × List UnstructuredElement)) :
    (sortPairs l).Perm l := by
  induction l with
  | nil => exact List.Perm.refl _
  | cons x xs ih =>
      show (insertPair x (sortPairs xs)).Perm (x :: xs)
      exact (insertPair_perm x (sortPairs xs)).trans (ih.cons x)

theorem insertPair_sorted (x : Int × List UnstructuredElement)
    (l : List (Int × List UnstructuredElement))
    (h : l.Pairwise (fun a b => a.1 ≤ b.1)) :
    (insertPair x l).Pairwise (fun a b => a.1 ≤ b.1) := by
  induction l with
  | nil => simp [insertPair]
  | cons y ys ih =>
      obtain ⟨hy, hys⟩ := List.pairwise_cons.mp h
      simp only [insertPair]
      by_cases hlt : x.1 < y.1
      · rw [if_pos hlt]
        refine List.Pairwise.cons ?_ h
        intro z hz
        rcases List.mem_cons.mp hz with rfl | hz2
        · exact le_of_lt hlt
        · exact le_trans (le_of_lt hlt) (hy z hz2)
      · rw [if_neg hlt]
        refine List.Pairwise.cons ?_ (ih hys)
        intro z hz
        have hz2 : z ∈ x :: ys := (insertPair_perm x ys).subset hz
        rcases List.mem_cons.mp hz2 with rfl | hz3
        · exact not_lt.mp hlt
        · exact hy z hz3

theorem sortPairs_sorted (l : List (Int × List UnstructuredElement)) :
    (sortPairs l).Pairwise (fun a b => a.1 ≤ b.1) := by
  induction l with
  | nil => simp [sortPairs]
  | cons x xs ih => exact insertPair_sorted x (sortPairs xs) ih

theorem pageSummary_pages (es : List UnstructuredElement) :
    (pageSummary es).map (·.page) =
      (sortPairs (groupElementsByPage es)).map (·.1) := by
  unfold pageSummary
  rw [List.map_map]
  rfl

theorem filter_page_ne_nil_iff (es : List UnstructuredElement) (p : Int) :
    es.filter (fun e => pageOf e == p) ≠ [] ↔ ∃ e ∈ es, pageOf e = p := by
  constructor
  · intro hne
    obtain ⟨e, he⟩ := List.exists_mem_of_ne_nil _ hne
    have := List.mem_filter.mp he
    exact ⟨e, this.1, by simpa using this.2⟩
  · rintro ⟨e, he, hpe⟩ hnil
    have : e ∈ es.filter (fun x => pageOf x == p) :=
      List.mem_filter.mpr ⟨he, by simpa using hpe⟩
    rw [hnil] at this
    cases this

/-- Every group entry of `groupElementsByPage` holds exactly the elements of
its page, in original order. -/
theorem mem_groupElementsByPage_eq_filter (es : List UnstructuredElement)
    (p : Int) (l : List UnstructuredElement)
    (h : (p, l) ∈ groupElementsByPage es) :
    l = es.filter (fun e => pageOf e == p) := by
  have hfind := lookupGroup_of_mem (groupElementsByPage es) p l (keys_nodup es) h
  rw [lookupGroup_groupElementsByPage] at hfind
  by_cases hnil : es.filter (fun e => pageOf e == p) = []
  · rw [if_pos hnil] at hfind
    cases hfind
  · rw [if_neg hnil] at hfind
    exact (Option.some.injEq .. ▸ hfind).symm

set_option maxRecDepth 4000 in
/-- C9: the page synopsis list has exactly one entry per page present among
the elements (pages without elements are omitted), in strictly ascending page
order; each synopsis's titles and headers are the texts of that page's
`Title` / `Header` elements in original order, and its preview is the first
`NarrativeText` element's text truncated to 200 characters (empty when the
page has no narrative text). -/
theorem C9_page_synopsis (es : List UnstructuredElement) :
    ((pageSummary es).map (·.page)).Pairwise (· < ·)
    ∧ (∀ p : Int, p ∈ (pageSummary es).map (·.page) ↔ ∃ e ∈ es, pageOf e = p)
    ∧ (∀ s ∈ pageSummary es,
        s.titles = ((es.filter (fun e => pageOf e == s.page)).filter
            (fun e => e.type == "Title")).map (·.text)
        ∧ s.headers = ((es.filter (fun e => pageOf e == s.page)).filter
            (fun e => e.type == "Header")).map (·.text)
        ∧ s.preview = previewOf (es.filter (fun e => pageOf e == s.page))) := by
  refine ⟨?_, ?_, ?_⟩
  · rw [pageSummary_pages]
    have hle : (sortPairs (groupElementsByPage es)).Pairwise
        (fun a b => a.1 ≤ b.1) := sortPairs_sorted _
    have hnd : ((sortPairs (groupElementsByPage es)).map (·.1)).Nodup := by
      have hperm := (sortPairs_perm (groupElementsByPage es)).map (·.1)
      exact hperm.nodup_iff.mpr (keys_nodup es)
    exact List.pairwise_map.mpr
      ((hle.and (List.pairwise_map.mp hnd)).imp (fun h => lt_of_le_of_ne h.1 h.2))
  · intro p
    rw [pageSummary_pages]
    have hperm := (sortPairs_perm (groupElementsByPage es)).map (·.1)
    rw [hperm.mem_iff, mem_keys_iff_lookup, lookupGroup_groupElementsByPage]
    by_cases hnil : es.filter (fun e => pageOf e == p) = []
    · rw [if_pos hnil]
      constructor
      · intro hcon
        exact absurd rfl hcon
      · intro hex
        exact absurd hnil ((filter_page_ne_nil_iff es p).mpr hex)
    · rw [if_neg hnil]
      constructor
      · intro _
        exact (filter_page_ne_nil_iff es p).mp hnil
      · exact fun _ => Option.some_ne_none _
  · intro s hs
    obtain ⟨g, hg, rfl⟩ := List.mem_map.mp hs
    obtain ⟨p, l⟩ := g
    have hmem : (p, l) ∈ groupElementsByPage es :=
      (sortPairs_perm (groupElementsByPage es)).subset hg
    have hl := mem_groupElementsByPage_eq_filter es p l hmem
    refine ⟨?_, ?_, ?_⟩
    · show (synopsisOf p l).titles = _
      rw [show (synopsisOf p l).page = p from rfl, ← hl]
      rfl
    · show (synopsisOf p l).headers = _
      rw [show (synopsisOf p l).page = p from rfl, ← hl]
      rfl
    · show (synopsisOf p l).preview = _
      rw [show (synopsisOf p l).page = p from rfl, ← hl]
      simp only [synopsisOf]

/-- The concrete three-element scenario of the specification. -/
def scenarioElems : List UnstructuredElement :=
  [{ type := "Title", text := "T1", page_number := some 1 },
   { type := "NarrativeText", text := "N1", page_number := some 1 },
   { type := "Title", text := "T2", page_number := some 2 }]

set_option maxRecDepth 8000 in
/-- Witness for C9 at the concrete scenario: 3 elements on pages 1, 1, 2 of
types Title, NarrativeText, Title yield synopsis pages [1, 2], page 1 with
one title and the narrative preview, page 2 with one title and an empty
preview. -/
theorem C9_witness :
    pageSummary scenarioElems =
      [{ page := 1, titles := ["T1"], headers := [], preview := "N1" },
       { page := 2, titles := ["T2"], headers := [], preview := "" }]
    ∧ ({ page := 2, titles := ["T2"], headers := [], preview := "" } :
          PageSynopsis).titles =
        ((scenarioElems.filter (fun e => pageOf e == 2)).filter
            (fun e => e.type == "Title")).map (·.text) := by
  refine ⟨by decide, ?_⟩
  have h := (C9_page_synopsis scenarioElems).2.2
  exact (h { page := 2, titles := ["T2"], headers := [], preview := "" }
    (by decide)).1

/-! Decimal digit lists: basic properties, used for filename reasoning. -/

/-- Decimal digit characters, `0` through `9`. -/
def charIsDigit (c : Char) : Bool := 48 ≤ c.toNat && c.toNat ≤ 57

theorem natDigitsAux_irrel :
    ∀ (n fuel fuel' : Nat), n < fuel → n < fuel' →
      natDigitsAux fuel n = natDigitsAux fuel' n := by
  intro n
  induction n using Nat.strong_induction_on with
  | _ n ih =>
      intro fuel fuel' hf hf'
      cases fuel with
      | zero => omega
      | succ f =>
          cases fuel' with
          | zero => omega
          | succ f' =>
              simp only [natDigitsAux]
              by_cases h10 : n < 10
              · rw [if_pos h10, if_pos h10]
              · rw [if_neg h10, if_neg h10]
                have hd : n / 10 < n := Nat.div_lt_self (by omega) (by omega)
                rw [ih (n / 10) hd f f' (by omega) (by omega)]

theorem natDigits_eq (n : Nat) :
    natDigits n = if n < 10 then [Nat.digitChar n]
      else natDigits (n / 10) ++ [Nat.digitChar (n % 10)] := by
  show natDigitsAux (n + 1) n = _
  simp only [natDigitsAux]
  by_cases h10 : n < 10
  · rw [if_pos h10, if_pos h10]
  · rw [if_neg h10, if_neg h10]
    have hd : n / 10 < n := Nat.div_lt_self (by omega) (by omega)
    rw [natDigitsAux_irrel (n / 10) n (n / 10 + 1) (by omega) (by omega)]
    rfl

/-- Reading a digit list back as a number (left inverse of `natDigits`). -/
def digitsVal (l : List Char) : Nat :=
  l.foldl (fun a c => 10 * a + (c.toNat - 48)) 0

theorem digitChar_toNat : ∀ d : Nat, d < 10 → (Nat.digitChar d).toNat = 48 + d := by
  intro d hd
  interval_cases d <;> rfl

theorem digitChar_props : ∀ d : Nat, d < 10 →
    Char.toLower (Nat.digitChar d) = Nat.digitChar d
    ∧ charIsDigit (Nat.digitChar d) = true
    ∧ validChar (Nat.digitChar d) = true := by
  intro d hd
  interval_cases d <;> exact ⟨by decide, by decide, by decide⟩

theorem digitsVal_natDigits : ∀ n : Nat, digitsVal (natDigits n) = n := by
  intro n
  induction n using Nat.strong_induction_on with
  | _ n ih =>
      rw [natDigits_eq]
      by_cases h10 : n < 10
      · rw [if_pos h10]
        show 10 * 0 + ((Nat.digitChar n).toNat - 48) = n
        rw [digitChar_toNat n h10]
        omega
      · rw [if_neg h10]
        have hd : n / 10 < n := Nat.div_lt_self (by omega) (by omega)
        unfold digitsVal
        rw [List.foldl_append]
        show 10 * (digitsVal (natDigits (n / 10))) +
            ((Nat.digitChar (n % 10)).toNat - 48) = n
        rw [ih (n / 10) hd, digitChar_toNat (n % 10) (Nat.mod_lt n (by omega))]
        omega

theorem natDigits_inj {a b : Nat} (h : natDigits a = natDigits b) : a = b := by
  have ha := digitsVal_natDigits a
  rw [h, digitsVal_natDigits b] at ha
  exact ha.symm

theorem natDigits_mem_digitChar :
    ∀ n : Nat, ∀ c ∈ natDigits n, ∃ d : Nat, d < 10 ∧ c = Nat.digitChar d := by
  intro n
  induction n using Nat.strong_induction_on with
  | _ n ih =>
      intro c hc
      rw [natDigits_eq] at hc
      by_cases h10 : n < 10
      · rw [if_pos h10] at hc
        rcases List.mem_singleton.mp hc with rfl
        exact ⟨n, h10, rfl⟩
      · rw [if_neg h10] at hc
        rcases List.mem_append.mp hc with h | h
        · exact ih (n / 10) (Nat.div_lt_self (by omega) (by omega)) c h
        · rcases List.mem_singleton.mp h with rfl
          exact ⟨n % 10, Nat.mod_lt n (by omega), rfl⟩

theorem natDigits_all_digit (n : Nat) : ∀ c ∈ natDigits n, charIsDigit c = true := by
  intro c hc
  obtain ⟨d, hd, rfl⟩ := natDigits_mem_digitChar n c hc
  exact (digitChar_props d hd).2.1

theorem natDigits_all_valid (n : Nat) : ∀ c ∈ natDigits n, validChar c = true := by
  intro c hc
  obtain ⟨d, hd, rfl⟩ := natDigits_mem_digitChar n c hc
  exact (digitChar_props d hd).2.2

theorem natDigits_all_lower (n : Nat) :
    ∀ c ∈ natDigits n, Char.toLower c = c := by
  intro c hc
  obtain ⟨d, hd, rfl⟩ := natDigits_mem_digitChar n c hc
  exact (digitChar_props d hd).1

theorem natDigits_ne_nil (n : Nat) : natDigits n ≠ [] := by
  rw [natDigits_eq]
  by_cases h10 : n < 10
  · rw [if_pos h10]
    exact List.cons_ne_nil _ _
  · rw [if_neg h10]
    simp

theorem charIsDigit_ne_dash {c : Char} (h : charIsDigit c = true) : ¬ c = '-' := by
  intro hc
  subst hc
  exact absurd h (by decide)

/-! Sanitizer invariants (claim C7). -/

theorem replRuns_all_valid_chars :
    ∀ (flag : Bool) (l : List Char), ∀ c ∈ replRuns flag l, validChar c = true := by
  intro flag l
  induction l generalizing flag with
  | nil => intro c hc; simp [replRuns] at hc
  | cons x xs ih =>
      intro c hc
      simp only [replRuns] at hc
      by_cases hv : validChar x
      · rw [if_pos hv] at hc
        rcases List.mem_cons.mp hc with rfl | h
        · exact hv
        · exact ih false c h
      · rw [if_neg hv] at hc
        cases flag with
        | true =>
            rw [if_pos rfl] at hc
            exact ih true c hc
        | false =>
            rw [if_neg (by simp)] at hc
            rcases List.mem_cons.mp hc with rfl | h
            · decide
            · exact ih true c h

theorem dropWhile_mem_subset (p : Char → Bool) :
    ∀ l : List Char, ∀ c ∈ l.dropWhile p, c ∈ l := by
  intro l
  induction l with
  | nil => intro c hc; simp at hc
  | cons x xs ih =>
      intro c hc
      rw [List.dropWhile_cons] at hc
      by_cases hx : p x = true
      · rw [if_pos hx] at hc
        exact List.mem_cons_of_mem _ (ih c hc)
      · rw [if_neg hx] at hc
        exact hc

theorem stripDashes_subset (l : List Char) : ∀ c ∈ stripDashes l, c ∈ l := by
  intro c hc
  unfold stripDashes at hc
  rw [List.mem_reverse] at hc
  have h1 := dropWhile_mem_subset _ _ c hc
  rw [List.mem_reverse] at h1
  exact dropWhile_mem_subset _ _ c h1

theorem collapseDashes_subset :
    ∀ (flag : Bool) (l : List Char), ∀ c ∈ collapseDashes flag l, c ∈ l := by
  intro flag l
  induction l generalizing flag with
  | nil => intro c hc; simp [collapseDashes] at hc
  | cons x xs ih =>
      intro c hc
      simp only [collapseDashes] at hc
      by_cases hx : x = '-'
      · rw [if_pos hx] at hc
        cases flag with
        | true =>
            rw [if_pos rfl] at hc
            exact List.mem_cons_of_mem _ (ih true c hc)
        | false =>
            rw [if_neg (by simp)] at hc
            rcases List.mem_cons.mp hc with rfl | h
            · rw [hx]
              exact List.mem_cons_self _ _
            · exact List.mem_cons_of_mem _ (ih true c h)
      · rw [if_neg hx] at hc
        rcases List.mem_cons.mp hc with rfl | h
        · exact List.mem_cons_self _ _
        · exact List.mem_cons_of_mem _ (ih false c h)

/-- No two adjacent dashes anywhere in the list. -/
def noDD : List Char → Bool
  | c1 :: c2 :: rest => if c1 = '-' ∧ c2 = '-' then false else noDD (c2 :: rest)
  | _ => true

theorem collapseDashes_noDD :
    ∀ (flag : Bool) (l : List Char),
      noDD (collapseDashes flag l) = true
      ∧ (flag = true → ∀ c, (collapseDashes flag l).head? = some c → ¬ c = '-') := by
  intro flag l
  induction l generalizing flag with
  | nil => exact ⟨rfl, fun _ c hc => by cases hc⟩
  | cons x xs ih =>
      simp only [collapseDashes]
      by_cases hx : x = '-'
      · rw [if_pos hx]
        cases flag with
        | true =>
            rw [if_pos rfl]
            exact ⟨(ih true).1, fun _ => (ih true).2 rfl⟩
        | false =>
            rw [if_neg (by simp)]
            constructor
            · cases hR : collapseDashes true xs with
              | nil => rfl
              | cons r R =>
                  have hr : ¬ r = '-' := by
                    have := (ih true).2 rfl r
                    rw [hR] at this
                    exact this rfl
                  have hnot : ¬ ('-' = '-' ∧ r = '-') := fun h => hr h.2
                  rw [show noDD ('-' :: r :: R) =
                      if ('-' = '-' ∧ r = '-') then false else noDD (r :: R) from rfl,
                    if_neg hnot]
                  have := (ih true).1
                  rw [hR] at this
                  exact this
            · intro hcon
              cases hcon
      · rw [if_neg hx]
        constructor
        · cases hR : collapseDashes false xs with
          | nil => rfl
          | cons r R =>
              have hnot : ¬ (x = '-' ∧ r = '-') := fun h => hx h.1
              rw [show noDD (x :: r :: R) =
                  if (x = '-' ∧ r = '-') then false else noDD (r :: R) from rfl,
                if_neg hnot]
              have := (ih false).1
              rw [hR] at this
              exact this
        · intro _ c hc
          rcases Option.some.injEq .. ▸ hc with rfl
          exact hx

theorem noDD_take :
    ∀ (l : List Char) (n : Nat), noDD l = true → noDD (l.take n) = true
  | [], n, _ => by simp [noDD]
  | [c], n, _ => by
      cases n with
      | zero => rfl
      | succ m =>
          cases m <;> rfl
  | c1 :: c2 :: rest, 0, h => rfl
  | c1 :: c2 :: rest, 1, h => rfl
  | c1 :: c2 :: rest, (n + 2), h => by
      simp only [noDD] at h
      by_cases hd : c1 = '-' ∧ c2 = '-'
      · rw [if_pos hd] at h
        cases h
      · rw [if_neg hd] at h
        have ht := noDD_take (c2 :: rest) (n + 1) h
        show noDD (c1 :: c2 :: rest.take n) = true
        have : (c2 :: rest).take (n + 1) = c2 :: rest.take n := rfl
        rw [this] at ht
        simp only [noDD, if_neg hd]
        exact ht

theorem dropWhile_head_not (p : Char → Bool) :
    ∀ (l : List Char) (c : Char), (l.dropWhile p).head? = some c → p c = false := by
  intro l
  induction l with
  | nil => intro c hc; cases hc
  | cons x xs ih =>
      intro c hc
      rw [List.dropWhile_cons] at hc
      by_cases hx : p x = true
      · rw [if_pos hx] at hc
        exact ih c hc
      · rw [if_neg hx] at hc
        rcases Option.some.injEq .. ▸ hc with rfl
        exact Bool.eq_false_iff.mpr hx

theorem dropWhile_eq_drop (p : Char → Bool) :
    ∀ l : List Char, ∃ j, l.dropWhile p = l.drop j := by
  intro l
  induction l with
  | nil => exact ⟨0, rfl⟩
  | cons x xs ih =>
      by_cases hx : p x = true
      · obtain ⟨j, hj⟩ := ih
        refine ⟨j + 1, ?_⟩
        rw [List.dropWhile_cons, if_pos hx, hj]
        rfl
      · exact ⟨0, by rw [List.dropWhile_cons, if_neg hx]; rfl⟩

theorem head?_take {l : List Char} {m : Nat} {c : Char}
    (h : (l.take m).head? = some c) : l.head? = some c := by
  cases l with
  | nil => simp at h
  | cons x xs =>
      cases m with
      | zero => simp at h
      | succ k => exact h

theorem stripDashes_head_not_dash (l : List Char) (c : Char)
    (h : (stripDashes l).head? = some c) : ¬ c = '-' := by
  unfold stripDashes at h
  set A := l.dropWhile (· = '-') with hA
  obtain ⟨j, hj⟩ := dropWhile_eq_drop (· = '-') A.reverse
  rw [hj] at h
  have hrev : (A.reverse.drop j).reverse = A.take (A.length - j) := by
    rw [List.reverse_drop, List.reverse_reverse, List.length_reverse]
  rw [hrev] at h
  have hhead : A.head? = some c := head?_take h
  have := dropWhile_head_not (· = '-') l c (by rw [← hA]; exact hhead)
  simpa using this

theorem collapse_head_not_dash (l : List Char)
    (hl : ∀ c, l.head? = some c → ¬ c = '-') (c : Char)
    (h : (collapseDashes false l).head? = some c) : ¬ c = '-' := by
  cases l with
  | nil => cases h
  | cons x xs =>
      have hx : ¬ x = '-' := hl x rfl
      simp only [collapseDashes, if_neg hx] at h
      rcases Option.some.injEq .. ▸ h with rfl
      exact hx

/-- The concrete boundary of the naming scenario. -/
def emailBoundary : DocumentBoundary :=
  { start_page := 19, end_page := 27, document_type := .email,
    title := "Maria & Cowie!!", description := "", confidence := 9/10 }

/-- C7 counterexample: the scenario boundary does not produce the name the
claim states.  Sanitization runs over the whole concatenated filename, so the
dash produced by the title's trailing "!!" run survives in front of the `_p`
separator: the produced name is "email_maria-cowie-_p19-27.pdf", not
"email_maria-cowie_p19-27.pdf". -/
theorem C7_counterexample :
    suggestedName 27 emailBoundary ≠ "email_maria-cowie_p19-27.pdf"
      ∧ suggestedName 27 emailBoundary = "email_maria-cowie-_p19-27.pdf" := by
  constructor
  · decide
  · decide

/-- C7 (amended): the artifact name is `sanitizeFileName` applied to the
whole `{documentType}_{title}_p{startPage}-{endPage}.pdf` string (clamped
page numbers): the entire name is lowercased, every run of characters outside
`[a-z0-9._-]` collapses to one dash, the leading and trailing dash runs of
the whole name are stripped, dash runs are collapsed, and the result is
capped at 200 characters.  Hence every produced name is at most 200
characters, contains only `[a-z0-9._-]` characters, has no two adjacent
dashes and does not start with a dash; because a run of invalid characters at
the end of the title yields a dash interior to the name, the scenario
boundary produces "email_maria-cowie-_p19-27.pdf". -/
theorem C7_artifact_naming (N : Int) (b : DocumentBoundary) :
    (suggestedName N b).data.length ≤ 200
    ∧ (∀ c ∈ (suggestedName N b).data, validChar c = true)
    ∧ noDD (suggestedName N b).data = true
    ∧ (∀ c, (suggestedName N b).data.head? = some c → ¬ c = '-')
    ∧ suggestedName 27 emailBoundary = "email_maria-cowie-_p19-27.pdf" := by
  have hdata : (suggestedName N b).data =
      (sanitizeNoCap (rawFileName b (max 1 b.start_page) (min N b.end_page))).take 200 :=
    rfl
  refine ⟨?_, ?_, ?_, ?_, by decide⟩
  · rw [hdata, List.length_take]
    exact min_le_left _ _
  · intro c hc
    rw [hdata] at hc
    have h1 := List.take_subset 200 _ hc
    have h2 := collapseDashes_subset false _ c h1
    have h3 := stripDashes_subset _ c h2
    exact replRuns_all_valid_chars false _ c h3
  · rw [hdata]
    exact noDD_take _ 200 (collapseDashes_noDD false _).1
  · intro c hc
    rw [hdata] at hc
    have h1 : (sanitizeNoCap
        (rawFileName b (max 1 b.start_page) (min N b.end_page))).head? = some c :=
      head?_take hc
    exact collapse_head_not_dash _ (fun d hd => stripDashes_head_not_dash _ d hd) c h1

/-- Witness for C7's universally quantified conjuncts at the scenario
boundary and a concrete character of its name. -/
theorem C7_witness :
    validChar 'e' = true ∧ ¬ ('e' = '-') := by
  have h := C7_artifact_naming 27 emailBoundary
  refine ⟨h.2.1 'e' ?_, h.2.2.2.1 'e' ?_⟩
  · rw [h.2.2.2.2]
    decide
  · rw [h.2.2.2.2]
    decide

/-! Suffix preservation through the sanitizer pipeline (claim C8): the
`_p{start}-{end}.pdf` tail of a raw filename — all of whose characters are
valid, lowercase, and dash-separated by digits — passes through every stage
unchanged. -/

theorem replRuns_id_of_valid :
    ∀ (flag : Bool) (u : List Char), (∀ c ∈ u, validChar c = true) →
      replRuns flag u = u := by
  intro flag u
  induction u generalizing flag with
  | nil => intro _; rfl
  | cons c cs ih =>
      intro h
      simp only [replRuns, if_pos (h c (List.mem_cons_self _ _))]
      rw [ih false (fun x hx => h x (List.mem_cons_of_mem _ hx))]

theorem replRuns_append_valid (u : List Char)
    (hu : ∀ c ∈ u, validChar c = true) :
    ∀ (flag : Bool) (X : List Char),
      replRuns flag (X ++ u) = replRuns flag X ++ u := by
  intro flag X
  induction X generalizing flag with
  | nil =>
      rw [List.nil_append]
      show replRuns flag u = replRuns flag [] ++ u
      rw [replRuns_id_of_valid flag u hu]
      rfl
  | cons x xs ih =>
      rw [List.cons_append]
      by_cases hv : validChar x
      · simp only [replRuns, if_pos hv]
        rw [ih false]
        rfl
      · simp only [replRuns, if_neg hv]
        cases flag with
        | true =>
            rw [if_pos rfl, if_pos rfl]
            exact ih true
        | false =>
            rw [if_neg (by simp), if_neg (by simp)]
            rw [ih true]
            rfl

theorem dropWhile_append_cons (p : Char → Bool) {c : Char} (hc : p c = false)
    (t : List Char) :
    ∀ X : List Char, (X ++ c :: t).dropWhile p = X.dropWhile p ++ c :: t := by
  intro X
  induction X with
  | nil =>
      rw [List.nil_append]
      show (c :: t).dropWhile p = _
      rw [List.dropWhile_cons, if_neg (by rw [hc]; simp)]
      rfl
  | cons x xs ih =>
      rw [List.cons_append, List.dropWhile_cons, List.dropWhile_cons]
      by_cases hx : p x = true
      · rw [if_pos hx, if_pos hx]
        exact ih
      · rw [if_neg hx, if_neg hx, List.cons_append]

theorem stripTrailing_last_not (p : Char → Bool) (Y : List Char) {c : Char}
    (hc : p c = false) :
    ((Y ++ [c]).reverse.dropWhile p).reverse = Y ++ [c] := by
  have h1 : (Y ++ [c]).reverse = c :: Y.reverse := by simp
  rw [h1, List.dropWhile_cons, if_neg (by rw [hc]; simp), ← h1,
    List.reverse_reverse]

theorem stripDashes_append (X : List Char) {d : Char} {v : List Char}
    {c : Char} {w : List Char} (hshape : d :: v = w ++ [c])
    (hd : (d = '-' : Bool) = false) (hc : (c = '-' : Bool) = false) :
    stripDashes (X ++ d :: v) = X.dropWhile (· = '-') ++ d :: v := by
  unfold stripDashes
  rw [dropWhile_append_cons (· = '-') hd v X, hshape, ← List.append_assoc,
    stripTrailing_last_not (· = '-') _ hc, List.append_assoc]

theorem collapseDashes_digits :
    ∀ (ds : List Char), ds ≠ [] → (∀ c ∈ ds, charIsDigit c = true) →
      ∀ (flag : Bool) (r : List Char),
        collapseDashes flag (ds ++ r) = ds ++ collapseDashes false r := by
  intro ds
  induction ds with
  | nil => intro h; exact absurd rfl h
  | cons d ds' ih =>
      intro _ hdig flag r
      have hd : ¬ d = '-' := charIsDigit_ne_dash (hdig d (List.mem_cons_self _ _))
      rw [List.cons_append]
      simp only [collapseDashes, if_neg hd]
      by_cases hnil : ds' = []
      · subst hnil
        rw [List.nil_append]
        rfl
      · rw [ih hnil (fun x hx => hdig x (List.mem_cons_of_mem _ hx)) false r]
        rfl

/-- The canonical page-range tail of a raw filename. -/
def nameTail (sn en : Nat) : List Char :=
  '_' :: 'p' :: (natDigits sn ++ ('-' :: (natDigits en ++ ['.', 'p', 'd', 'f'])))

theorem nameTail_all_valid (sn en : Nat) :
    ∀ c ∈ nameTail sn en, validChar c = true := by
  intro c hc
  unfold nameTail at hc
  rcases List.mem_cons.mp hc with rfl | hc
  · decide
  rcases List.mem_cons.mp hc with rfl | hc
  · decide
  rcases List.mem_append.mp hc with h | hc
  · exact natDigits_all_valid sn c h
  rcases List.mem_cons.mp hc with rfl | hc
  · decide
  rcases List.mem_append.mp hc with h | hc
  · exact natDigits_all_valid en c h
  rcases List.mem_cons.mp hc with rfl | hc
  · decide
  rcases List.mem_cons.mp hc with rfl | hc
  · decide
  rcases List.mem_cons.mp hc with rfl | hc
  · decide
  rcases List.mem_cons.mp hc with rfl | hc
  · decide
  cases hc

theorem nameTail_all_lower (sn en : Nat) :
    ∀ c ∈ nameTail sn en, Char.toLower c = c := by
  intro c hc
  unfold nameTail at hc
  rcases List.mem_cons.mp hc with rfl | hc
  · decide
  rcases List.mem_cons.mp hc with rfl | hc
  · decide
  rcases List.mem_append.mp hc with h | hc
  · exact natDigits_all_lower sn c h
  rcases List.mem_cons.mp hc with rfl | hc
  · decide
  rcases List.mem_append.mp hc with h | hc
  · exact natDigits_all_lower en c h
  rcases List.mem_cons.mp hc with rfl | hc
  · decide
  rcases List.mem_cons.mp hc with rfl | hc
  · decide
  rcases List.mem_cons.mp hc with rfl | hc
  · decide
  rcases List.mem_cons.mp hc with rfl | hc
  · decide
  cases hc

theorem nameTail_shape (sn en : Nat) :
    nameTail sn en =
      ('_' :: 'p' :: (natDigits sn ++ ('-' :: (natDigits en ++ ['.', 'p', 'd'])))) ++ ['f'] := by
  unfold nameTail
  simp

theorem collapseDashes_nameTail :
    ∀ (flag : Bool) (W : List Char) (sn en : Nat),
      collapseDashes flag (W ++ nameTail sn en) =
        collapseDashes flag W ++ nameTail sn en := by
  intro flag W
  induction W generalizing flag with
  | nil =>
      intro sn en
      rw [List.nil_append]
      show collapseDashes flag (nameTail sn en) = [] ++ nameTail sn en
      rw [List.nil_append]
      unfold nameTail
      simp only [collapseDashes, if_neg (by decide : ¬ '_' = '-'),
        if_neg (by decide : ¬ 'p' = '-')]
      rw [collapseDashes_digits (natDigits sn) (natDigits_ne_nil sn)
        (natDigits_all_digit sn) false ('-' :: (natDigits en ++ ['.', 'p', 'd', 'f']))]
      simp only [collapseDashes, if_pos rfl, if_neg (by decide : ¬ false = true)]
      rw [collapseDashes_digits (natDigits en) (natDigits_ne_nil en)
        (natDigits_all_digit en) true ['.', 'p', 'd', 'f']]
      rfl
  | cons x xs ih =>
      intro sn en
      rw [List.cons_append]
      by_cases hx : x = '-'
      · simp only [collapseDashes, if_pos hx]
        cases flag with
        | true =>
            rw [if_pos rfl, if_pos rfl]
            exact ih true sn en
        | false =>
            rw [if_neg (by simp), if_neg (by simp), ih true sn en]
            rfl
      · simp only [collapseDashes, if_neg hx]
        rw [ih false sn en]
        rfl

theorem map_id_of_forall {f : Char → Char} :
    ∀ l : List Char, (∀ c ∈ l, f c = c) → l.map f = l := by
  intro l
  induction l with
  | nil => intro _; rfl
  | cons x xs ih =>
      intro h
      rw [List.map_cons, h x (List.mem_cons_self _ _),
        ih (fun c hc => h c (List.mem_cons_of_mem _ hc))]

theorem rawFileName_data (b : DocumentBoundary) (s e : Int)
    (hs : 0 ≤ s) (he : 0 ≤ e) :
    (rawFileName b s e).data =
      (b.document_type.str ++ "_" ++ b.title).data ++ nameTail s.toNat e.toNat := by
  have hsi : intStr s = natDigits s.toNat := by
    unfold intStr
    rw [if_neg (by omega)]
  have hei : intStr e = natDigits e.toNat := by
    unfold intStr
    rw [if_neg (by omega)]
  unfold rawFileName
  simp only [String.data_append]
  rw [hsi, hei]
  unfold nameTail
  simp [List.append_assoc]

/-- The sanitizer pipeline leaves the `_p{s}-{e}.pdf` tail untouched: the
uncapped sanitized raw filename is the processed prefix followed by the
verbatim tail. -/
theorem sanitizeNoCap_rawFileName (b : DocumentBoundary) (s e : Int)
    (hs : 0 ≤ s) (he : 0 ≤ e) :
    sanitizeNoCap (rawFileName b s e) =
      collapseDashes false
        ((replRuns false
            ((b.document_type.str ++ "_" ++ b.title).data.map Char.toLower)).dropWhile
          (· = '-'))
        ++ nameTail s.toNat e.toNat := by
  unfold sanitizeNoCap
  rw [rawFileName_data b s e hs he, List.map_append,
    map_id_of_forall _ (nameTail_all_lower _ _),
    replRuns_append_valid _ (nameTail_all_valid _ _) false _]
  have hstrip : stripDashes
      (replRuns false ((b.document_type.str ++ "_" ++ b.title).data.map Char.toLower)
        ++ nameTail s.toNat e.toNat) =
      (replRuns false
        ((b.document_type.str ++ "_" ++ b.title).data.map Char.toLower)).dropWhile (· = '-')
        ++ nameTail s.toNat e.toNat := by
    exact stripDashes_append _ (nameTail_shape s.toNat e.toNat) (by decide) (by decide)
  rw [hstrip, collapseDashes_nameTail false _ s.toNat e.toNat]

theorem takeWhile_all_append (p : Char → Bool) :
    ∀ (a : List Char), (∀ x ∈ a, p x = true) → ∀ {c : Char}, p c = false →
      ∀ (r : List Char), (a ++ c :: r).takeWhile p = a := by
  intro a
  induction a with
  | nil =>
      intro _ c hc r
      rw [List.nil_append, List.takeWhile_cons, if_neg (by rw [hc]; simp)]
  | cons x xs ih =>
      intro h c hc r
      rw [List.cons_append, List.takeWhile_cons,
        if_pos (h x (List.mem_cons_self _ _)),
        ih (fun y hy => h y (List.mem_cons_of_mem _ hy)) hc r]

/-- Parsing a digit run followed by a non-digit separator out of a list
equality: the runs, the separators and the remainders agree. -/
theorem append_digit_parse {d1 d2 r1 r2 : List Char} {c1 c2 : Char}
    (h : d1 ++ c1 :: r1 = d2 ++ c2 :: r2)
    (hd1 : ∀ x ∈ d1, charIsDigit x = true) (hd2 : ∀ x ∈ d2, charIsDigit x = true)
    (hc1 : charIsDigit c1 = false) (hc2 : charIsDigit c2 = false) :
    d1 = d2 ∧ c1 = c2 ∧ r1 = r2 := by
  have ht : d1 = d2 := by
    have e1 := takeWhile_all_append charIsDigit d1 hd1 hc1 r1
    have e2 := takeWhile_all_append charIsDigit d2 hd2 hc2 r2
    rw [← e1, ← e2, h]
  subst ht
  have h2 : c1 :: r1 = c2 :: r2 := List.append_cancel_left h
  injection h2 with hc hr
  exact ⟨rfl, hc, hr⟩

theorem name_reverse_shape (P : List Char) (sn en : Nat) :
    (P ++ nameTail sn en).reverse =
      'f' :: 'd' :: 'p' :: '.' ::
        ((natDigits en).reverse ++ '-' ::
          ((natDigits sn).reverse ++ 'p' :: '_' :: P.reverse)) := by
  unfold nameTail
  simp [List.append_assoc]

/-- Distinct clamped start pages force distinct sanitized names, provided
neither uncapped sanitized name exceeds the 200-character cap. -/
theorem sanitized_names_ne (b1 b2 : DocumentBoundary) (s1 e1 s2 e2 : Int)
    (hs1 : 1 ≤ s1) (he1 : 0 ≤ e1) (hs2 : 1 ≤ s2) (he2 : 0 ≤ e2)
    (hne : s1 ≠ s2)
    (hlen1 : (sanitizeNoCap (rawFileName b1 s1 e1)).length ≤ 200)
    (hlen2 : (sanitizeNoCap (rawFileName b2 s2 e2)).length ≤ 200) :
    sanitizeFileName (rawFileName b1 s1 e1) ≠ sanitizeFileName (rawFileName b2 s2 e2) := by
  intro heq
  have hfd : ∀ s : String, (sanitizeFileName s).data = (sanitizeNoCap s).take 200 :=
    fun _ => rfl
  have hdata : (sanitizeNoCap (rawFileName b1 s1 e1)).take 200 =
      (sanitizeNoCap (rawFileName b2 s2 e2)).take 200 := by
    rw [← hfd, ← hfd, heq]
  rw [List.take_of_length_le hlen1, List.take_of_length_le hlen2] at hdata
  rw [sanitizeNoCap_rawFileName b1 s1 e1 (by omega) he1,
    sanitizeNoCap_rawFileName b2 s2 e2 (by omega) he2] at hdata
  have hrev := congrArg List.reverse hdata
  rw [name_reverse_shape, name_reverse_shape] at hrev
  injection hrev with _ hrev
  injection hrev with _ hrev
  injection hrev with _ hrev
  injection hrev with _ hrev
  have hp1 := append_digit_parse hrev
    (fun x hx => natDigits_all_digit e1.toNat x (List.mem_reverse.mp hx))
    (fun x hx => natDigits_all_digit e2.toNat x (List.mem_reverse.mp hx))
    (by decide) (by decide)
  obtain ⟨_, _, hrest⟩ := hp1
  have hp2 := append_digit_parse hrest
    (fun x hx => natDigits_all_digit s1.toNat x (List.mem_reverse.mp hx))
    (fun x hx => natDigits_all_digit s2.toNat x (List.mem_reverse.mp hx))
    (by decide) (by decide)
  obtain ⟨hds, _, _⟩ := hp2
  have hsn : s1.toNat = s2.toNat := natDigits_inj (List.reverse_injective hds)
  omega

/-- C8 counterexample fixtures: two boundaries with the same 200-character
title and non-overlapping one-page ranges. -/
def longTitle : String := ⟨List.replicate 200 'a'⟩

def bndLongA : DocumentBoundary :=
  { start_page := 1, end_page := 1, document_type := .email, title := longTitle,
    description := "", confidence := 1 }

def bndLongB : DocumentBoundary :=
  { start_page := 2, end_page := 2, document_type := .email, title := longTitle,
    description := "", confidence := 1 }

set_option maxRecDepth 20000 in
/-- C8 counterexample: the 200-character cap is applied last, so two distinct
boundaries with non-overlapping page ranges but a common long title get the
same (truncated) artifact name. -/
theorem C8_counterexample :
    bndLongA ≠ bndLongB
    ∧ bndLongA.end_page < bndLongB.start_page
    ∧ suggestedName 2 bndLongA = suggestedName 2 bndLongB := by
  refine ⟨by decide, by decide, by decide⟩

/-- C8 (amended): naming is a pure function of the boundary's type, title and
clamped page range; and for every two artifacts of one run whose boundaries'
page ranges do not overlap, the names are distinct provided neither uncapped
sanitized name exceeds the 200-character cap (truncation can otherwise
collapse the names of long-titled boundaries, as the counterexample shows). -/
theorem C8_naming_pure_and_unique (N : Int) (f : DocumentBoundary → Bool)
    (bs : List DocumentBoundary) :
    (∀ b b' : DocumentBoundary, b.document_type = b'.document_type →
        b.title = b'.title → b.start_page = b'.start_page →
        b.end_page = b'.end_page → suggestedName N b = suggestedName N b')
    ∧ (∀ r1 ∈ (splitPDF N f bs).1, ∀ r2 ∈ (splitPDF N f bs).1,
        (r1.boundary.end_page < r2.boundary.start_page ∨
            r2.boundary.end_page < r1.boundary.start_page) →
        (sanitizeNoCap (rawFileName r1.boundary (max 1 r1.boundary.start_page)
            (min N r1.boundary.end_page))).length ≤ 200 →
        (sanitizeNoCap (rawFileName r2.boundary (max 1 r2.boundary.start_page)
            (min N r2.boundary.end_page))).length ≤ 200 →
        r1.suggestedFileName ≠ r2.suggestedFileName) := by
  constructor
  · intro b b' h1 h2 h3 h4
    unfold suggestedName rawFileName
    rw [h1, h2, h3, h4]
  · intro r1 h1 r2 h2 hdisj hl1 hl2
    obtain ⟨_, hc1, hn1⟩ := splitPDF_results_spec N f bs r1 h1
    obtain ⟨_, hc2, hn2⟩ := splitPDF_results_spec N f bs r2 h2
    rw [hn1, hn2]
    show sanitizeFileName (rawFileName r1.boundary (max 1 r1.boundary.start_page)
        (min N r1.boundary.end_page)) ≠
      sanitizeFileName (rawFileName r2.boundary (max 1 r2.boundary.start_page)
        (min N r2.boundary.end_page))
    have hs1 : (1 : Int) ≤ max 1 r1.boundary.start_page := le_max_left _ _
    have hs2 : (1 : Int) ≤ max 1 r2.boundary.start_page := le_max_left _ _
    have hm1 : min N r1.boundary.end_page ≤ r1.boundary.end_page := min_le_right _ _
    have hm2 : min N r2.boundary.end_page ≤ r2.boundary.end_page := min_le_right _ _
    have hx1 : r1.boundary.start_page ≤ max 1 r1.boundary.start_page := le_max_right _ _
    have hx2 : r2.boundary.start_page ≤ max 1 r2.boundary.start_page := le_max_right _ _
    have hne : max 1 r1.boundary.start_page ≠ max 1 r2.boundary.start_page := by
      rcases hdisj with h | h
      · omega
      · omega
    exact sanitized_names_ne r1.boundary r2.boundary _ _ _ _
      hs1 (by omega) hs2 (by omega) hne hl1 hl2

/-- Witness for the amended C8 at a concrete run: the two artifacts of the
[1–5, 6–10] split carry distinct names. -/
theorem C8_witness :
    mkSplitResult 10 bndPages1to5 ∈
        (splitPDF 10 (fun _ => false) [bndPages1to5, bndPages6to10]).1
    ∧ mkSplitResult 10 bndPages6to10 ∈
        (splitPDF 10 (fun _ => false) [bndPages1to5, bndPages6to10]).1
    ∧ (mkSplitResult 10 bndPages1to5).suggestedFileName ≠
        (mkSplitResult 10 bndPages6to10).suggestedFileName := by
  have hm1 : mkSplitResult 10 bndPages1to5 ∈
      (splitPDF 10 (fun _ => false) [bndPages1to5, bndPages6to10]).1 := by decide
  have hm2 : mkSplitResult 10 bndPages6to10 ∈
      (splitPDF 10 (fun _ => false) [bndPages1to5, bndPages6to10]).1 := by decide
  refine ⟨hm1, hm2, ?_⟩
  exact (C8_naming_pure_and_unique 10 (fun _ => false)
      [bndPages1to5, bndPages6to10]).2
    _ hm1 _ hm2 (Or.inl (by decide)) (by decide) (by decide)

end HoleVerif
